import Mathlib

/-!
Verification of the expression-evaluation engine of the Go scientific
calculator (packages calculator, parser, utils of
Oluwaseyi89/calculator-built-with-go).

Shallow embedding conventions:

* Go strings are modelled as lists of characters (abbrev Str).  All the
  inputs relevant to the claims are ASCII, so the byte/rune distinction of
  Go never shows.
* Go float64 values are modelled as exact rationals.  The arithmetic the
  claims depend on (integer arithmetic, factorials, powers with integer
  exponents, comparisons used by validation branches) is exact in float64
  or, where float64 overflows (factorial above 170, huge powers), the
  divergence is exactly the subject of the corresponding claim and is
  discussed there.  Transcendental library functions (math.Sin, math.Exp,
  ...) have irrational values with no rational counterpart; they are
  modelled by placeholder functions, and no theorem in this file depends
  on any of their values - only on the error/success structure around
  them, which the embedding reproduces faithfully.
* Go errors (fmt.Errorf) are strings; fallible functions return
  Except String.
* The two regular expressions used by the parser and validator
  (funcRegex and the validator patterns) are compiled into explicit
  scanners implementing the leftmost-first matching semantics of Go's
  regexp package; each scanner is documented next to its definition.
-/

/-- Go strings, as lists of characters. -/
abbrev Str := List Char

/-- Go float64, modelled as exact rationals (see the file header). -/
abbrev Q := ℚ

/-! ## Character classes -/

/-- ASCII decimal digit, as used by Parser.isDigit (the comparisons of
the Go source are on code points, written here via toNat). -/
def isDigitCh (c : Char) : Bool := decide (48 ≤ c.toNat) && decide (c.toNat ≤ 57)

/-- ASCII lowercase letter (regexp class [a-z]). -/
def isLowerCh (c : Char) : Bool := decide (97 ≤ c.toNat) && decide (c.toNat ≤ 122)

/-- ASCII uppercase letter. -/
def isUpperCh (c : Char) : Bool := decide (65 ≤ c.toNat) && decide (c.toNat ≤ 90)

/-- Word character of Go regexp (\w = [0-9A-Za-z_]), used by the \b
word-boundary assertions of the constant-substitution patterns. -/
def isWordCh (c : Char) : Bool :=
  isDigitCh c || isLowerCh c || isUpperCh c || decide (c = '_')

/-- First character of an identifier in funcRegex ([a-zA-Z_]). -/
def isNameStartCh (c : Char) : Bool := isLowerCh c || isUpperCh c || decide (c = '_')

/-- Whitespace of Go regexp (\s = [\t\n\f\r ]). -/
def isSpaceCh (c : Char) : Bool :=
  decide (c = ' ') || decide (c = '\t') || decide (c = '\n') ||
  decide (c = '\x0c') || decide (c = '\r')

/-- The uppercase-to-lowercase table of ASCII. -/
def lowerTable : List (Char × Char) :=
  [('A', 'a'), ('B', 'b'), ('C', 'c'), ('D', 'd'), ('E', 'e'), ('F', 'f'),
   ('G', 'g'), ('H', 'h'), ('I', 'i'), ('J', 'j'), ('K', 'k'), ('L', 'l'),
   ('M', 'm'), ('N', 'n'), ('O', 'o'), ('P', 'p'), ('Q', 'q'), ('R', 'r'),
   ('S', 's'), ('T', 't'), ('U', 'u'), ('V', 'v'), ('W', 'w'), ('X', 'x'),
   ('Y', 'y'), ('Z', 'z')]

/-- ASCII lowercasing of a character, modelling strings.ToLower (the
inputs of interest are ASCII). -/
def lowerChar (c : Char) : Char :=
  match lowerTable.find? (fun p => p.1 == c) with
  | some p => p.2
  | none => c

/-! ## Decimal formatting (fmt %.10f and %.6g) and parsing
(strconv.ParseFloat) -/

/-- The decimal digit characters, by value (used by the formatters). -/
def digitChar (d : Nat) : Char :=
  match d with
  | 0 => '0' | 1 => '1' | 2 => '2' | 3 => '3' | 4 => '4'
  | 5 => '5' | 6 => '6' | 7 => '7' | 8 => '8' | _ => '9'

/-- Decimal digits of a natural number, most significant first; the
fuel is a step bound making the recursion structural (n + 1 always
suffices, since each step divides by ten). -/
def natDigitsAux : Nat → Nat → Str
  | 0, _ => []
  | f + 1, n =>
    if n < 10 then [digitChar n]
    else natDigitsAux f (n / 10) ++ [digitChar (n % 10)]

/-- Decimal digits of a natural number, most significant first. -/
def natDigits (n : Nat) : Str := natDigitsAux (n + 1) n

/-- Left-pad a digit string with zeros to a given width. -/
def padZeros (w : Nat) (s : Str) : Str :=
  List.replicate (w - s.length) '0' ++ s

/-- Digit value of a character (inverse of digitChar on digits). -/
def digitVal (c : Char) : Nat := c.toNat - 48

/-- Numeric value of a digit string (most significant first). -/
def natVal (s : Str) : Nat := s.foldl (fun a c => 10 * a + digitVal c) 0

/-- fmt.Sprintf with verb %.10f on a nonnegative value: integer part,
a dot, and exactly ten fractional digits.  Go rounds the float64 half to
even; ties never arise at the values reached by the theorems below, so
rounding is modelled by floor of x + 1/2. -/
def f10abs (q : Q) : Str :=
  let n : Nat := (Int.floor (q * 10 ^ 10 + 1 / 2)).toNat
  natDigits (n / 10 ^ 10) ++ '.' :: padZeros 10 (natDigits (n % 10 ^ 10))

/-- fmt.Sprintf with verb %.10f, used by the preprocessor when it
substitutes constants, variables and resolved function calls. -/
def formatF10 (q : Q) : Str :=
  if q < 0 then '-' :: f10abs (-q) else f10abs q

/-- Decimal exponent of a positive rational: the unique e with
10 ^ e ≤ q < 10 ^ (e + 1) (e as an integer). -/
def decExp (q : Q) : ℤ :=
  let raw : ℤ := (natDigits q.num.natAbs).length - (natDigits q.den).length
  if q < (10 : Q) ^ raw then raw - 1
  else if q < (10 : Q) ^ (raw + 1) then raw
  else raw + 1

/-- Strip trailing zeros, and then a trailing dot, from a digit string
(the %g format drops them). -/
def stripZeros (s : Str) : Str :=
  let t := (s.reverse.dropWhile (fun c => c = '0'))
  (t.dropWhile (fun c => c = '.')).reverse

/-- fmt.Sprintf with verb %.6g (six significant digits, exponent form
far from 1), used by Calculator.AddToHistory when it renders a result
into the stored history line.  Go formats the float64 value; this models
the same format on the exact rational.  No theorem below depends on the
digits this function produces, only on where its output is stored. -/
def formatG6 (q : Q) : Str :=
  if q = 0 then ['0'] else
  let sign : Str := if q < 0 then ['-'] else []
  let a : Q := |q|
  let e : ℤ := decExp a
  let m : Nat := (Int.floor (a / (10 : Q) ^ (e - 5) : Q) + 1 / 2).toNat
  let ds := padZeros 6 (natDigits m)
  if e < -4 ∨ 5 < e then
    let mant := stripZeros (ds.take 1 ++ '.' :: ds.drop 1)
    let esign : Str := if e < 0 then ['-'] else ['+']
    sign ++ mant ++ 'e' :: esign ++ padZeros 2 (natDigits e.natAbs)
  else
    let k : Nat := (e + 1).toNat
    sign ++ stripZeros (ds.take k ++ '.' :: ds.drop k) ++
      (if 6 ≤ e then List.replicate (e - 5).toNat '0' else [])

/-- strconv.ParseFloat on the decimal forms that can reach it here:
optional sign, then digits with an optional dot (digits before or after
the dot may be absent but not both), then an optional exponent part
(e or E, optional sign, one or more digits), consuming the whole string.
Go additionally accepts inf/NaN/hex/underscore forms; no string built
from the calculator character set that reaches ParseFloat has those
shapes, so they are omitted.  The exponent is applied exactly (the
float64 rounding of the resulting value is irrelevant to every theorem
below). -/
def parseFloatQ (s : Str) : Option Q :=
  let (sgn, s1) : Q × Str :=
    match s with
    | [] => (1, [])
    | c :: t => if c = '-' then (-1, t) else if c = '+' then (1, t) else (1, c :: t)
  let d1 := s1.takeWhile isDigitCh
  let r1 := s1.dropWhile isDigitCh
  let (hasDot, d2, r2) : Bool × Str × Str :=
    match r1 with
    | [] => (false, [], [])
    | c :: t =>
      if c = '.' then (true, t.takeWhile isDigitCh, t.dropWhile isDigitCh)
      else (false, [], c :: t)
  if d1.length = 0 ∧ (¬ hasDot ∨ d2.length = 0) then none
  else
    let mant : Q := sgn * ((natVal d1 : Q) + (natVal d2 : Q) / 10 ^ d2.length)
    match r2 with
    | [] => some mant
    | e :: t =>
      if e = 'e' ∨ e = 'E' then
        let (esgn, t1) : ℤ × Str :=
          match t with
          | [] => (1, [])
          | c :: u => if c = '-' then (-1, u) else if c = '+' then (1, u) else (1, c :: u)
        let ed := t1.takeWhile isDigitCh
        if ed.length ≠ 0 ∧ t1.dropWhile isDigitCh = [] then
          some (mant * (10 : Q) ^ (esgn * (natVal ed : ℤ)))
        else none
      else none

/-! ## package calculator: arithmetic.go -/

/-- calculator.Add. -/
def CalcAdd (a b : Q) : Q := a + b

/-- calculator.Subtract. -/
def CalcSubtract (a b : Q) : Q := a - b

/-- calculator.Multiply. -/
def CalcMultiply (a b : Q) : Q := a * b

/-- calculator.Divide: explicit zero check, otherwise exact division. -/
def CalcDivide (a b : Q) : Except String Q :=
  if b = 0 then .error "division by zero" else .ok (a / b)

/-- Truncation toward zero (math.Trunc), as an integer. -/
def truncQ (q : Q) : ℤ := q.num / (q.den : ℤ)

/-- A rational is an integer exactly when Go's n == math.Trunc(n). -/
def isIntQ (q : Q) : Bool := decide (q.den = 1)

/-- Binary exponentiation on rationals (the fuel only bounds the
halving recursion; n + 1 always suffices).  Proved equal to the monoid
power below (qpowNat_eq); it is used so that concrete powers reduce
shallowly. -/
def qpowAux : Nat → Q → Nat → Q
  | 0, _, _ => 1
  | f + 1, a, n =>
    if n = 0 then 1
    else
      let h := qpowAux f a (n / 2)
      if n % 2 = 0 then h * h else h * h * a

/-- Exact natural power of a rational. -/
def qpowNat (a : Q) (n : Nat) : Q := qpowAux (n + 1) a n

/-- qpowAux computes the monoid power once the fuel covers the input. -/
theorem qpowAux_correct : ∀ (f : Nat) (a : Q) (n : Nat), n ≤ f →
    qpowAux (f + 1) a n = a ^ n := by
  intro f
  induction f with
  | zero =>
    intro a n hn
    interval_cases n
    · simp [qpowAux]
  | succ f ih =>
    intro a n hn
    by_cases h0 : n = 0
    · simp [qpowAux, h0]
    · have hdiv : n / 2 ≤ f := by omega
      have hrec : qpowAux (f + 1) a (n / 2) = a ^ (n / 2) := ih a (n / 2) hdiv
      have step : qpowAux (f + 1 + 1) a n =
          (if n % 2 = 0 then qpowAux (f + 1) a (n / 2) * qpowAux (f + 1) a (n / 2)
           else qpowAux (f + 1) a (n / 2) * qpowAux (f + 1) a (n / 2) * a) := by
        conv_lhs => rw [qpowAux]
        rw [if_neg h0]
      by_cases hpar : n % 2 = 0
      · rw [step, if_pos hpar, hrec, ← pow_add]
        congr 1
        omega
      · rw [step, if_neg hpar, hrec, ← pow_add, ← pow_succ]
        congr 1
        omega

/-- qpowNat is the monoid power. -/
theorem qpowNat_eq (a : Q) (n : Nat) : qpowNat a n = a ^ n :=
  qpowAux_correct n a n le_rfl

/-- calculator.Power wraps math.Pow with no domain check and no error
return.  For an integer exponent the value is the exact power (with
math.Pow(x, 0) = 1 for every x, including 0^0, as documented for
math.Pow; for base 0 and a negative exponent Go returns +Inf, which has
no rational counterpart – the reciprocal of 0 is 0 here, and no theorem
below evaluates that corner).  For a non-integer exponent the float64
value is irrational in general; it is modelled by 0, and no theorem
below depends on it. -/
def CalcPower (base exponent : Q) : Q :=
  if exponent.den = 1 then
    (if 0 ≤ exponent.num then qpowNat base exponent.num.toNat
     else (qpowNat base (-exponent.num).toNat)⁻¹)
  else 0

/-- calculator.Modulus: zero check, then math.Mod (remainder with the
sign of the dividend, a - b*trunc(a/b)). -/
def CalcModulus (a b : Q) : Except String Q :=
  if b = 0 then .error "modulus by zero"
  else .ok (a - b * (truncQ (a / b) : Q))

/-- calculator.Factorial: rejects negative or non-integer input, then
multiplies 2 * 3 * ... * n, which is exactly n! (in float64 the product
rounds, and overflows to +Inf from n = 171 on - the subject of claim C4;
there is no upper bound check in this function). -/
def CalcFactorial (n : Q) : Except String Q :=
  if n < 0 ∨ ¬ n.den = 1 then
    .error "factorial undefined for non-integer or negative numbers"
  else .ok (Nat.factorial n.num.toNat : Q)

/-! ## package calculator: scientific.go

math.Sin and its relatives have irrational values; sinModel etc. are
placeholders standing for those unrepresentable values (file header).
The error structure (which functions can fail, and on which inputs) is
taken from the Go source. -/

/-- Placeholder for the float64 value of math.Sin (see file header). -/
def sinModel (_ : Q) : Q := 0

/-- Placeholder for the float64 value of math.Cos. -/
def cosModel (_ : Q) : Q := 0

/-- Placeholder for the float64 value of math.Tan. -/
def tanModel (_ : Q) : Q := 0

/-- Placeholder for the float64 value of math.Asin on [-1, 1]. -/
def asinModel (_ : Q) : Q := 0

/-- Placeholder for the float64 value of math.Acos on [-1, 1]. -/
def acosModel (_ : Q) : Q := 0

/-- Placeholder for the float64 value of math.Atan. -/
def atanModel (_ : Q) : Q := 0

/-- Placeholder for the float64 value of math.Sinh. -/
def sinhModel (_ : Q) : Q := 0

/-- Placeholder for the float64 value of math.Cosh. -/
def coshModel (_ : Q) : Q := 0

/-- Placeholder for the float64 value of math.Tanh. -/
def tanhModel (_ : Q) : Q := 0

/-- Placeholder for the float64 value of math.Sqrt on nonnegatives. -/
def sqrtModel (_ : Q) : Q := 0

/-- Placeholder for the float64 value of math.Cbrt. -/
def cbrtModel (_ : Q) : Q := 0

/-- Placeholder for the float64 value of math.Log on positives. -/
def logModel (_ : Q) : Q := 0

/-- Placeholder for the float64 value of math.Log10 on positives. -/
def log10Model (_ : Q) : Q := 0

/-- Placeholder for the float64 value of math.Exp. -/
def expModel (_ : Q) : Q := 0

/-- calculator.Asin: domain check then math.Asin. -/
def CalcAsin (x : Q) : Except String Q :=
  if x < -1 ∨ 1 < x then .error "asin input must be between -1 and 1"
  else .ok (asinModel x)

/-- calculator.Acos: domain check then math.Acos. -/
def CalcAcos (x : Q) : Except String Q :=
  if x < -1 ∨ 1 < x then .error "acos input must be between -1 and 1"
  else .ok (acosModel x)

/-- calculator.Sqrt: domain check then math.Sqrt. -/
def CalcSqrt (x : Q) : Except String Q :=
  if x < 0 then .error "square root of negative number"
  else .ok (sqrtModel x)

/-- calculator.Log: domain check then math.Log. -/
def CalcLog (x : Q) : Except String Q :=
  if x ≤ 0 then .error "logarithm undefined for non-positive numbers"
  else .ok (logModel x)

/-- calculator.Log10: domain check then math.Log10. -/
def CalcLog10 (x : Q) : Except String Q :=
  if x ≤ 0 then .error "log10 undefined for non-positive numbers"
  else .ok (log10Model x)

/-- calculator.Abs (math.Abs is exact). -/
def CalcAbs (x : Q) : Q := |x|

/-- The exact value of the float64 constant math.Pi
(0x400921FB54442D18 = 884279719003555 * 2^-48). -/
def piQ : Q := (884279719003555 : Q) / 281474976710656

/-- The exact value of the float64 constant math.E
(0x4005BF0A8B145769 = 6121026514868073 * 2^-51). -/
def eQ : Q := (6121026514868073 : Q) / 2251799813685248

/-! ## package calculator: memory.go and history.go -/

/-- The Calculator struct: accumulator memory, last successful result,
and the bounded history of formatted entries.  The RWMutex only
serialises access and has no observable effect on the sequential
behaviour modelled here. -/
structure CalcState where
  memory : Q
  lastResult : Q
  history : List Str
  deriving Repr, DecidableEq

/-- calculator.NewCalculator. -/
def NewCalculator : CalcState := { memory := 0, lastResult := 0, history := [] }

/-- Calculator.SetLastResult. -/
def SetLastResult (c : CalcState) (v : Q) : CalcState := { c with lastResult := v }

/-- Calculator.GetLastResult. -/
def GetLastResult (c : CalcState) : Q := c.lastResult

/-- Calculator.AddToHistory: append the line "expression = result"
(result via %.6g) and evict the oldest entry beyond 100. -/
def AddToHistory (c : CalcState) (expression : Str) (result : Q) : CalcState :=
  let entry := expression ++ ' ' :: '=' :: ' ' :: formatG6 result
  let h := c.history ++ [entry]
  { c with history := if 100 < h.length then h.drop 1 else h }

/-- calculator.HistoryEntry, as returned by GetHistory. -/
structure HistoryEntry where
  Expression : Str
  Result : Q
  Timestamp : Nat
  deriving Repr, DecidableEq

/-- Calculator.GetHistory: rebuilds HistoryEntry values from the stored
strings.  The Go loop sets only Expression and Timestamp (the latter to
time.Now(), passed here explicitly as the reading of the clock at the
call); Result is left at its zero value 0. -/
def GetHistory (c : CalcState) (now : Nat) : List HistoryEntry :=
  c.history.map (fun entry => { Expression := entry, Result := 0, Timestamp := now })

/-! ## package utils: validators.go -/

/-- Shorthand turning a Lean string literal into the character-list
representation used throughout. -/
def strL (s : String) : Str := s.data

/-- The operator characters of HasConsecutiveOperators. -/
def isOpCh (c : Char) : Bool :=
  decide (c = '+') || decide (c = '-') || decide (c = '*') ||
  decide (c = '/') || decide (c = '^') || decide (c = '%')

/-- Running-balance loop of utils.HasBalancedParentheses: fails as soon
as the balance would go negative, and requires balance zero at the end. -/
def balAux (balance : ℤ) : Str → Bool
  | [] => decide (balance = 0)
  | c :: rest =>
    if c = '(' then balAux (balance + 1) rest
    else if c = ')' then
      if balance - 1 < 0 then false else balAux (balance - 1) rest
    else balAux balance rest

/-- utils.HasBalancedParentheses. -/
def HasBalancedParentheses (expr : Str) : Bool := balAux 0 expr

/-- Scan of utils.HasConsecutiveOperators, threading the previous
character (initially a space). -/
def consecAux (prev : Char) : Str → Bool
  | [] => false
  | c :: rest =>
    if isOpCh prev && isOpCh c &&
       !((decide (prev = '+') || decide (prev = '-')) &&
         (decide (c = '+') || decide (c = '-'))) then true
    else consecAux c rest

/-- utils.HasConsecutiveOperators: an operator pair is illegal unless the
second operator is a sign (+ or -) following a + or -. -/
def HasConsecutiveOperators (expr : Str) : Bool := consecAux ' ' expr

/-- Character class of utils.ValidExpressionRegex,
[0-9+\-*/().^%!a-zπe\s] (note: no comma). -/
def validExprChar (c : Char) : Bool :=
  isDigitCh c || isLowerCh c || isOpCh c ||
  decide (c = '(') || decide (c = ')') || decide (c = '.') ||
  decide (c = '!') || decide (c = 'π') || isSpaceCh c

/-- utils.ValidExpressionRegex.MatchString: the anchored pattern
[...]+ holds exactly when the string is nonempty and every character is
in the class. -/
def ValidExpressionRegexMatch (expr : Str) : Bool :=
  !expr.isEmpty && expr.all validExprChar

/-- Scanner for FindAllStringSubmatch of the validator pattern
([a-z]+)\( : the captured names are exactly the maximal runs of
lowercase letters immediately followed by an opening parenthesis
(a match can only start at the beginning of such a run, since [a-z]+ is
greedy and backtracking inside a run always faces a letter where \( is
required).  The accumulator holds the letters of the current run,
reversed. -/
def funcCallNamesAux (acc : Str) : Str → List Str
  | [] => []
  | c :: rest =>
    if isLowerCh c then funcCallNamesAux (c :: acc) rest
    else if c = '(' ∧ acc ≠ [] then acc.reverse :: funcCallNamesAux [] rest
    else funcCallNamesAux [] rest

/-- All function names referenced by an expression, in order. -/
def funcCallNames (expr : Str) : List Str := funcCallNamesAux [] expr

/-- The validFunctions set of utils.ValidateFunctionCalls.  Note that it
covers only the fifteen names below: pow, min, max, round, floor and
ceil are absent, although the parser dispatch implements them (claim
C6); the log10 entry is unreachable because [a-z]+ can never capture a
name containing a digit. -/
def validFunctions : List Str :=
  [strL "sin", strL "cos", strL "tan",
   strL "asin", strL "acos", strL "atan",
   strL "sinh", strL "cosh", strL "tanh",
   strL "sqrt", strL "cbrt",
   strL "log", strL "log10",
   strL "exp", strL "abs"]

/-- First unknown name among a list of captured function names. -/
def firstUnknown : List Str → Option Str
  | [] => none
  | n :: rest => if n ∈ validFunctions then firstUnknown rest else some n

/-- utils.ValidateFunctionCalls: every captured name must be registered,
and the counts of opening and closing parentheses must agree. -/
def ValidateFunctionCalls (expr : Str) : Except String Unit :=
  match firstUnknown (funcCallNames expr) with
  | some n => .error ("unknown function: " ++ ⟨n⟩)
  | none =>
    if expr.count '(' ≠ expr.count ')' then .error "mismatched parentheses"
    else .ok ()

/-- Case split of numMantissa on the digit-run decomposition of the
input: d1 is the maximal leading digit run, r1 the remainder. -/
def numMantissaCore (d1 r1 : Str) : Option (Str × Str) :=
  match r1 with
  | c :: t =>
    if c = '.' then
      if t.takeWhile isDigitCh = [] then
        (if d1 = [] then none else some (d1, '.' :: t))
      else some (d1 ++ '.' :: t.takeWhile isDigitCh, t.dropWhile isDigitCh)
    else if d1 = [] then none else some (d1, c :: t)
  | [] => if d1 = [] then none else some (d1, [])

/-- Greedy match of \d*\.?\d+ at the head of the string, with the
backtracking of the optional dot: digits, then a dot only if at least
one digit follows it (otherwise the dot is dropped; if no digits
preceded it either, there is no match).  Returns the match and the rest. -/
def numMantissa (s : Str) : Option (Str × Str) :=
  numMantissaCore (s.takeWhile isDigitCh) (s.dropWhile isDigitCh)

/-- Greedy match of the optional exponent group (?:[eE][+-]?\d+) at the
head of the string: if no complete exponent is present the group matches
empty.  Returns the consumed part and the rest. -/
def numExponent (s : Str) : Str × Str :=
  match s with
  | c :: t =>
    if c = 'e' ∨ c = 'E' then
      match t with
      | s2 :: u =>
        if s2 = '+' ∨ s2 = '-' then
          let d := u.takeWhile isDigitCh
          if d = [] then ([], s) else (c :: s2 :: d, u.dropWhile isDigitCh)
        else
          let d := t.takeWhile isDigitCh
          if d = [] then ([], s) else (c :: d, t.dropWhile isDigitCh)
      | [] => ([], s)
    else ([], s)
  | [] => ([], s)

/-- Match of the full number pattern -?\d*\.?\d+(?:[eE][+-]?\d+)?
starting exactly at the head of the string (leftmost-first semantics:
the optional minus is taken when present, and if no mantissa follows the
minus there is no match at this position at all, since a mantissa can
never start at the minus sign itself). -/
def numMatchAt (s : Str) : Option (Str × Str) :=
  match s with
  | '-' :: t =>
    match numMantissa t with
    | some (m, r) =>
      let (ex, r2) := numExponent r
      some ('-' :: (m ++ ex), r2)
    | none => none
  | _ =>
    match numMantissa s with
    | some (m, r) =>
      let (ex, r2) := numExponent r
      some (m ++ ex, r2)
    | none => none


/-- takeWhile and dropWhile lengths add up to the whole (helper). -/
theorem len_take_drop (p : Char → Bool) (l : Str) :
    (l.takeWhile p).length + (l.dropWhile p).length = l.length := by
  have h : l.takeWhile p ++ l.dropWhile p = l := List.takeWhile_append_dropWhile p l
  calc (l.takeWhile p).length + (l.dropWhile p).length
      = (l.takeWhile p ++ l.dropWhile p).length := (List.length_append _ _).symm
    _ = l.length := by rw [h]

/-- dropWhile never lengthens a list (termination helper). -/
theorem len_dropWhile_le (p : Char → Bool) (l : Str) :
    (l.dropWhile p).length ≤ l.length := by
  have := len_take_drop p l; omega

/-- Unfolding equation for numMantissaCore on the empty rest. -/
theorem numMantissaCore_nil (d1 : Str) :
    numMantissaCore d1 [] = if d1 = [] then none else some (d1, []) := rfl

/-- Unfolding equation for numMantissaCore on a nonempty rest. -/
theorem numMantissaCore_cons (d1 : Str) (c : Char) (t : Str) :
    numMantissaCore d1 (c :: t) = (if c = '.' then
      if t.takeWhile isDigitCh = [] then
        (if d1 = [] then none else some (d1, '.' :: t))
      else some (d1 ++ '.' :: t.takeWhile isDigitCh, t.dropWhile isDigitCh)
    else if d1 = [] then none else some (d1, c :: t)) := rfl

/-- A successful numMantissaCore consumes at least one character. -/
theorem numMantissaCore_rest {d1 r1 m r : Str}
    (h : numMantissaCore d1 r1 = some (m, r)) :
    r.length + 1 ≤ d1.length + r1.length := by
  rcases r1 with _ | ⟨c, t⟩
  · rw [numMantissaCore_nil] at h
    split at h
    · exact absurd h (by simp)
    · rename_i hne
      simp only [Option.some.injEq, Prod.mk.injEq] at h
      rcases h with ⟨rfl, rfl⟩
      rcases d1 with _ | _
      · exact absurd rfl hne
      · simp
  · rw [numMantissaCore_cons] at h
    split at h
    · split at h
      · split at h
        · exact absurd h (by simp)
        · rename_i hne
          simp only [Option.some.injEq, Prod.mk.injEq] at h
          rcases h with ⟨rfl, rfl⟩
          rcases d1 with _ | _
          · exact absurd rfl hne
          · simp; omega
      · simp only [Option.some.injEq, Prod.mk.injEq] at h
        rcases h with ⟨rfl, rfl⟩
        have := len_dropWhile_le isDigitCh t
        simp only [List.length_cons, List.length_append]
        omega
    · split at h
      · exact absurd h (by simp)
      · rename_i hne
        simp only [Option.some.injEq, Prod.mk.injEq] at h
        rcases h with ⟨rfl, rfl⟩
        rcases d1 with _ | _
        · exact absurd rfl hne
        · simp; omega

/-- numExponent never lengthens the rest. -/
theorem numExponent_rest_le (s : Str) : (numExponent s).2.length ≤ s.length := by
  rcases s with _ | ⟨c, t⟩
  · simp [numExponent]
  · rcases t with _ | ⟨s2, u⟩
    · by_cases hc : c = 'e' ∨ c = 'E'
      · simp [numExponent, hc]
      · simp [numExponent, hc]
    · unfold numExponent
      simp only []
      split
      · split
        · split
          · simp
          · have := len_dropWhile_le isDigitCh u
            simp; omega
        · split
          · simp
          · have := len_dropWhile_le isDigitCh (s2 :: u)
            simp at this ⊢; omega
      · simp

/-- A successful numMatchAt strictly shortens the string (the mantissa is
nonempty), so the find-all scan terminates. -/
theorem numMatchAt_rest_lt {s m r : Str} (h : numMatchAt s = some (m, r)) :
    r.length < s.length := by
  unfold numMatchAt at h
  split at h
  · rename_i t
    rcases hm : numMantissa t with _ | ⟨mm, rr⟩
    · rw [hm] at h; exact absurd h (by simp)
    · rw [hm] at h
      simp only [Option.some.injEq, Prod.mk.injEq] at h
      rcases h with ⟨_, hr⟩
      have h1 : rr.length + 1 ≤ t.length := by
        have := numMantissaCore_rest hm
        have := len_take_drop isDigitCh t
        omega
      have h2 := numExponent_rest_le rr
      rw [← hr]
      simp; omega
  · rcases hm : numMantissa s with _ | ⟨mm, rr⟩
    · rw [hm] at h; exact absurd h (by simp)
    · rw [hm] at h
      simp only [Option.some.injEq, Prod.mk.injEq] at h
      rcases h with ⟨_, hr⟩
      have h1 : rr.length + 1 ≤ s.length := by
        have := numMantissaCore_rest hm
        have := len_take_drop isDigitCh s
        omega
      have h2 := numExponent_rest_le rr
      rw [← hr]
      omega

/-- FindAllString scan of the validator number pattern: repeatedly take
the leftmost match and resume right after it (matches are nonempty, so
the Go scan and this one agree on resumption).  The fuel makes the
recursion structural; length + 1 always suffices because every step
consumes at least one character (numMatchAt_rest_lt). -/
def numberMatchesAux : Nat → Str → List Str
  | 0, _ => []
  | f + 1, s =>
    match s with
    | [] => []
    | c :: rest =>
      match numMatchAt (c :: rest) with
      | some (m, r) => m :: numberMatchesAux f r
      | none => numberMatchesAux f rest

/-- utils numberPattern.FindAllString(expr, -1). -/
def numberMatches (expr : Str) : List Str := numberMatchesAux (expr.length + 1) expr

/-- utils.ValidNumberRegex.MatchString: the same pattern anchored on both
sides.  The scanner numMatchAt is greedy with the pattern's own
backtracking, so a string is in the anchored language exactly when the
greedy match at position zero consumes the whole string. -/
def ValidNumberRegexMatch (s : Str) : Bool :=
  match numMatchAt s with
  | some (_, r) => r.isEmpty
  | none => false

/-- strings.Split on a one-character separator. -/
def splitOnChar (sep : Char) : Str → List Str
  | [] => [[]]
  | c :: rest =>
    if c = sep then [] :: splitOnChar sep rest
    else match splitOnChar sep rest with
      | [] => [[c]]
      | p :: ps => (c :: p) :: ps

/-- utils.ParseScientificNotation: lowercase, split on e, parse both
parts with ParseFloat, and scale the mantissa by math.Pow(10, exponent)
(the error messages of strconv are summarised as a fixed string; only
success or failure is ever observed). -/
def ParseScientificNotationQ (s : Str) : Except String Q :=
  match splitOnChar 'e' (s.map lowerChar) with
  | [p0, p1] =>
    match parseFloatQ p0, parseFloatQ p1 with
    | some mant, some ex => .ok (mant * CalcPower 10 ex)
    | _, _ => .error "invalid syntax"
  | _ => .error "invalid scientific notation"

/-- Per-match body of the loop of utils.ValidateNumbers. -/
def checkNumber (m : Str) : Except String Unit :=
  if ¬ ValidNumberRegexMatch m then
    .error ("invalid number format: " ++ ⟨m⟩)
  else if 1 < m.count '.' then
    .error ("invalid number with multiple decimal points: " ++ ⟨m⟩)
  else if m.any (fun c => c = 'e' ∨ c = 'E') then
    if (splitOnChar 'e' (m.map lowerChar)).length ≠ 2 then
      .error ("invalid scientific notation: " ++ ⟨m⟩)
    else
      match ParseScientificNotationQ m with
      | .ok _ => .ok ()
      | .error _ => .error ("invalid scientific notation: " ++ ⟨m⟩)
  else .ok ()

/-- First failure among a list of checks. -/
def firstError : List Str → Except String Unit
  | [] => .ok ()
  | m :: rest =>
    match checkNumber m with
    | .ok () => firstError rest
    | .error e => .error e

/-- utils.ValidateNumbers: extract every number-shaped substring and
validate it.  (Every extracted match is produced by the very pattern the
checks re-test, so this validator in fact never fails; that is proved
below and used where the pipeline needs it.) -/
def ValidateNumbers (expr : Str) : Except String Unit :=
  firstError (numberMatches expr)

/-- Prefix test on character lists (helper for containsSub). -/
def headMatches : Str → Str → Bool
  | [], _ => true
  | _ :: _, [] => false
  | a :: as, b :: bs => decide (a = b) && headMatches as bs

/-- strings.Contains: the first string contains the second as a
contiguous substring. -/
def containsSub (sub : Str) : Str → Bool
  | [] => sub.isEmpty
  | s@(_ :: rest) => headMatches sub s || containsSub sub rest

/-- utils.ValidateExpression: the checks in source order; the division-
by-zero heuristic fires when "/0" occurs anywhere and "/0." nowhere (the
source tests the "/0." exemption twice in a row; the second, nested test
is redundant and collapsed here). -/
def ValidateExpression (expr : Str) : Except String Unit :=
  if expr = [] then .error "empty expression"
  else if ¬ HasBalancedParentheses expr then .error "unbalanced parentheses"
  else if HasConsecutiveOperators expr then .error "consecutive operators"
  else if ¬ ValidExpressionRegexMatch expr then .error "invalid characters in expression"
  else if containsSub (strL "/0") expr ∧ ¬ containsSub (strL "/0.") expr then
    .error "potential division by zero"
  else
    match ValidateFunctionCalls expr with
    | .error e => .error e
    | .ok () => ValidateNumbers expr

/-- utils.ValidateFactorialArgument: the only place in the repository
with the 170 bound.  (The IsInf/IsNaN guards of the float64 original are
vacuous in the exact model.)  No function in the repository calls it. -/
def ValidateFactorialArgument (x : Q) : Except String Unit :=
  if x < 0 ∨ ¬ x.den = 1 then
    .error "factorial undefined for non-integer or negative numbers"
  else if 170 < x then .error "factorial too large for calculation"
  else .ok ()

/-- utils.ValidatePower: the 0^(non-positive) and negative-base domain
checks of the spec.  No function in the repository calls it. -/
def ValidatePower (base exponent : Q) : Except String Unit :=
  if base = 0 ∧ exponent ≤ 0 then .error "0^0 or 0^(negative) is undefined"
  else if base < 0 ∧ ¬ exponent.den = 1 then
    .error "negative base with non-integer exponent"
  else .ok ()

/-! ## package parser: tokenization and evaluation (expression.go) -/

/-- Parser.isNumber: strconv.ParseFloat succeeds. -/
def isNumberTok (t : Str) : Bool := (parseFloatQ t).isSome

/-- Did the previous original character exist and was it a digit
(the i > 0 && isDigit(expr[i-1]) test of Parser.tokenize)? -/
def prevIsDigit : Option Char → Bool
  | none => false
  | some p => isDigitCh p

/-- Scan of Parser.tokenize: digits, dots and an e directly after a
digit extend the current number token; any other character flushes the
current token and (except for a space) becomes a token of its own. -/
def tokenizeAux (prev : Option Char) (cur : Str) : Str → List Str
  | [] => if cur.isEmpty then [] else [cur]
  | c :: rest =>
    if isDigitCh c || decide (c = '.') || (decide (c = 'e') && prevIsDigit prev) then
      tokenizeAux (some c) (cur ++ [c]) rest
    else
      (if cur.isEmpty then [] else [cur]) ++
      (if c = ' ' then [] else [[c]]) ++
      tokenizeAux (some c) [] rest

/-- Parser.tokenize. -/
def tokenizeF (e : Str) : List Str := tokenizeAux none [] e

/-- Parser.isUnaryMinus and Parser.isUnaryPlus share this predicate on
the preceding original token: first position, or a predecessor that is
not a number, not a closing parenthesis and not the unary-minus marker. -/
def unaryPred : Option Str → Bool
  | none => true
  | some prev => !isNumberTok prev && !decide (prev = [')']) && !decide (prev = ['~'])

/-- Parser.processUnaryOperators: reclassify unary minus as the marker
token ~ and drop unary plus; prev is the previous token of the input
list (not of the output). -/
def puAux (prev : Option Str) : List Str → List Str
  | [] => []
  | t :: rest =>
    (if t = ['-'] ∧ unaryPred prev = true then [['~']]
     else if t = ['+'] ∧ unaryPred prev = true then []
     else [t]) ++ puAux (some t) rest

/-- Parser.processUnaryOperators. -/
def processUnaryOperators (tokens : List Str) : List Str := puAux none tokens

/-- Parser.precedence: ~ binds tightest, then ^, then * / %, then + -;
anything else (only "(" can reach it) has precedence 0. -/
def precedenceOf (op : Str) : Nat :=
  if op = ['~'] then 4
  else if op = ['+'] ∨ op = ['-'] then 1
  else if op = ['*'] ∨ op = ['/'] ∨ op = ['%'] then 2
  else if op = ['^'] then 3
  else 0

/-- Parser.isOperator: a key of the ops table or the unary marker. -/
def isOperatorTok (t : Str) : Bool :=
  decide (t = ['+']) || decide (t = ['-']) || decide (t = ['*']) ||
  decide (t = ['/']) || decide (t = ['%']) || decide (t = ['^']) ||
  decide (t = ['~'])

/-- The closing-parenthesis branch of Parser.shuntingYard: pop operators
to the output until the matching opening parenthesis, which is
discarded; an exhausted stack is a mismatch. -/
def popUntilLParen (out stack : List Str) : Except String (List Str × List Str) :=
  match stack with
  | [] => .error "mismatched parentheses"
  | top :: rest =>
    if top = ['('] then .ok (out, rest)
    else popUntilLParen (out ++ [top]) rest

/-- The operator branch of Parser.shuntingYard: pop while the stack top
is not an opening parenthesis and has precedence at least that of the
incoming operator. -/
def popGePrec (p : Nat) (out stack : List Str) : List Str × List Str :=
  match stack with
  | [] => (out, [])
  | top :: rest =>
    if ¬ top = ['('] ∧ p ≤ precedenceOf top then popGePrec p (out ++ [top]) rest
    else (out, top :: rest)

/-- Main loop of Parser.shuntingYard over the token list, carrying the
output queue and the operator stack. -/
def syLoop : List Str → List Str → List Str → Except String (List Str × List Str)
  | [], out, stack => .ok (out, stack)
  | t :: rest, out, stack =>
    if isNumberTok t then syLoop rest (out ++ [t]) stack
    else if t = ['('] then syLoop rest out (t :: stack)
    else if t = [')'] then
      match popUntilLParen out stack with
      | .error e => .error e
      | .ok (out2, st2) => syLoop rest out2 st2
    else if isOperatorTok t then
      let (out2, st2) := popGePrec (precedenceOf t) out stack
      syLoop rest out2 (t :: st2)
    else .error ("invalid token: " ++ ⟨t⟩)

/-- Final drain of Parser.shuntingYard: a leftover opening parenthesis
is a mismatch, all other stack entries flush to the output. -/
def syFlush (out stack : List Str) : Except String (List Str) :=
  match stack with
  | [] => .ok out
  | top :: rest =>
    if top = ['('] then .error "mismatched parentheses"
    else syFlush (out ++ [top]) rest

/-- Parser.shuntingYard. -/
def shuntingYard (tokens : List Str) : Except String (List Str) :=
  match syLoop tokens [] [] with
  | .error e => .error e
  | .ok (out, stack) => syFlush out stack

/-- One binary-operator step of Parser.evaluateRPN (a is below b on the
stack, so b is the right operand). -/
def applyBinOp (t : Str) (a b : Q) : Except String Q :=
  if t = ['+'] then .ok (CalcAdd a b)
  else if t = ['-'] then .ok (CalcSubtract a b)
  else if t = ['*'] then .ok (CalcMultiply a b)
  else if t = ['/'] then CalcDivide a b
  else if t = ['^'] then .ok (CalcPower a b)
  else if t = ['%'] then CalcModulus a b
  else .error ("unknown operator: " ++ ⟨t⟩)

/-- Loop of Parser.evaluateRPN over the postfix tokens; the Go slice
grows at the end, modelled here with the head of the list as the top of
the stack. -/
def evalRPNLoop : List Str → List Q → Except String (List Q)
  | [], stack => .ok stack
  | t :: rest, stack =>
    if isNumberTok t then
      match parseFloatQ t with
      | some v => evalRPNLoop rest (v :: stack)
      | none => .error ("invalid number: " ++ ⟨t⟩)
    else if t = ['~'] then
      match stack with
      | [] => .error "insufficient operands for unary minus"
      | v :: below => evalRPNLoop rest (-v :: below)
    else if isOperatorTok t then
      match stack with
      | b :: a :: below =>
        (match applyBinOp t a b with
         | .error e => .error e
         | .ok r => evalRPNLoop rest (r :: below))
      | _ => .error ("insufficient operands for operator " ++ ⟨t⟩)
    else .error ("unknown token in RPN: " ++ ⟨t⟩)

/-- Parser.evaluateRPN: run the stack machine; exactly one value must
remain. -/
def evaluateRPN (rpn : List Str) : Except String Q :=
  match evalRPNLoop rpn [] with
  | .error e => .error e
  | .ok [v] => .ok v
  | .ok _ => .error "invalid expression"

/-- strings.LastIndex for a single character. -/
def lastIndexOf (c : Char) : Str → Option Nat
  | [] => none
  | a :: rest =>
    match lastIndexOf c rest with
    | some i => some (i + 1)
    | none => if a = c then some 0 else none

/-- A last index is inside the string. -/
theorem lastIndexOf_lt_length {c : Char} {s : Str} {i : Nat}
    (h : lastIndexOf c s = some i) : i < s.length := by
  induction s generalizing i with
  | nil => exact absurd h (by simp [lastIndexOf])
  | cons a rest ih =>
    unfold lastIndexOf at h
    rcases hr : lastIndexOf c rest with _ | j
    · rw [hr] at h
      by_cases hac : a = c
      · rw [if_pos hac] at h
        simp only [Option.some.injEq] at h
        simp; omega
      · rw [if_neg hac] at h
        exact absurd h (by simp)
    · rw [hr] at h
      simp only [Option.some.injEq] at h
      have := ih hr
      simp; omega

/-- The factorial loop of Parser.evaluateWithFactorial: apply
calculator.Factorial count times, stopping at the first error. -/
def iterFact : Nat → Q → Except String Q
  | 0, v => .ok v
  | k + 1, v =>
    match CalcFactorial v with
    | .error e => .error e
    | .ok r => iterFact k r

/-- Parser.evaluate together with Parser.evaluateWithFactorial: when the
expression contains an exclamation mark, everything before the last one
is evaluated recursively and Factorial is applied once per character
from that position on (all of them are known to be at the end only when
the expression in fact ends in the run; the count is literally
len(expr) - lastIndex); otherwise tokenize, resolve unary signs, convert
to postfix, and run the stack machine. -/
def evaluateFuel : Nat → Str → Except String Q
  | 0, _ => .error "recursion limit"
  | f + 1, e =>
    if containsSub ['!'] e then
      match lastIndexOf '!' e with
      | none => .error "no factorial operator found"
      | some i =>
        match evaluateFuel f (e.take i) with
        | .error err => .error err
        | .ok base => iterFact (e.length - i) base
    else
      match shuntingYard (processUnaryOperators (tokenizeF e)) with
      | .error err => .error err
      | .ok rpn => evaluateRPN rpn

/-- Parser.evaluate.  The fuel length + 1 makes the recursion through
evaluateWithFactorial structural; it suffices because the recursive call
is on the strict prefix before the last exclamation mark
(lastIndexOf_lt_length), so the fuel-exhaustion stub is unreachable. -/
def evaluate (e : Str) : Except String Q := evaluateFuel (e.length + 1) e

/-! ## package parser: preprocessing (substitution, functions) and the
stateful entry point EvaluateExpression -/

/-- Is the previous character a word character (start-of-string counts
as a non-word position for the \b assertion)? -/
def isWordOpt : Option Char → Bool
  | none => false
  | some c => isWordCh c

/-- The \b assertion after a name: end of string, or a non-word
character. -/
def boundaryOkAfter : Str → Bool
  | [] => true
  | c :: _ => !isWordCh c

/-- Scan of regexp.ReplaceAllString for the pattern \b name \b used by
the constant/variable substitution of Parser.preprocess: at each
position, a whole-word occurrence of the name (previous character and
following character are not word characters) is replaced and scanning
resumes after it, the previous character then being the last character
of the name.  Names are identifiers, hence nonempty. -/
def rwAux (name repl : Str) : Nat → Option Char → Str → Str
  | 0, _, s => s
  | f + 1, prev, s =>
    match s with
    | [] => []
    | c :: rest =>
      if name ≠ [] ∧ headMatches name (c :: rest) = true ∧
          isWordOpt prev = false ∧ boundaryOkAfter ((c :: rest).drop name.length) = true then
        repl ++ rwAux name repl f name.getLast? ((c :: rest).drop name.length)
      else c :: rwAux name repl f (some c) rest

/-- regexp \b name \b ReplaceAllString.  The fuel length + 1 makes the
scan structural; it suffices because every step consumes at least one
character (the name is nonempty whenever a replacement fires). -/
def replaceWordAll (name repl s : Str) : Str := rwAux name repl (s.length + 1) none s

/-- The parser state: angle mode, user variables, the refreshed ans
constant, and the owned Calculator.  The constants pi and e are fixed
(their float64 values piQ and eQ); ans is the slot updated from the
calculator before each evaluation.  Go iterates its constants map in
unspecified order; for the three names involved no occurrence of one
can overlap or create an occurrence of another (replacements are made of
digits, dots and signs), so the fixed order pi, e, ans used here agrees
with every map order. -/
structure ParserState where
  angleDeg : Bool
  vars : List (Str × Q)
  ansConst : Q
  calcSt : CalcState
  deriving Repr, DecidableEq

/-- parser.NewParser on a fresh calculator: radian mode, no variables,
ans = 0. -/
def initState : ParserState :=
  { angleDeg := false, vars := [], ansConst := 0, calcSt := NewCalculator }

/-- The constant- and variable-substitution passes of Parser.preprocess
(the expression is already lowercased and space-free). -/
def substConstants (st : ParserState) (e : Str) : Str :=
  let e1 := replaceWordAll (strL "pi") (formatF10 piQ) e
  let e2 := replaceWordAll (strL "e") (formatF10 eQ) e1
  let e3 := replaceWordAll (strL "ans") (formatF10 st.ansConst) e2
  st.vars.foldl (fun acc nv => replaceWordAll nv.1 (formatF10 nv.2) acc) e3

/-- A match of parser.funcRegex ([a-zA-Z_][a-zA-Z0-9_]*)\(([^)]*)\). -/
structure FuncMatch where
  full : Str
  fname : Str
  args : Str
  deriving Repr, DecidableEq

/-- Scanner for FindStringSubmatch of parser.funcRegex, with the
leftmost-first semantics of Go regexp: at the first position where an
identifier run starts, the greedy name is the whole run; it must be
followed directly by an opening parenthesis (backtracking into the run
cannot help, because the shortened name is then followed by a word
character, never by a parenthesis); the argument part [^)]* then runs
exactly to the first closing parenthesis.  Note the argument part stops
at the FIRST closing parenthesis but happily crosses opening ones, so
for a nested call the leftmost match is the outer name with a truncated
argument string - the behaviour behind claim C1.  If the remainder holds
no closing parenthesis at all there is no match anywhere in it. -/
def findFuncMatch : Str → Option FuncMatch
  | [] => none
  | c :: rest =>
    if isNameStartCh c then
      let name := (c :: rest).takeWhile isWordCh
      match (c :: rest).dropWhile isWordCh with
      | '(' :: r2 =>
        let args := r2.takeWhile (fun x => !decide (x = ')'))
        match r2.dropWhile (fun x => !decide (x = ')')) with
        | ')' :: _ => some ⟨name ++ '(' :: args ++ [')'], name, args⟩
        | _ => none
      | _ => findFuncMatch rest
    else findFuncMatch rest

/-- strings.Replace(s, pat, repl, 1): replace the first occurrence. -/
def replaceFirst (s pat repl : Str) : Str :=
  if pat = [] then repl ++ s
  else match s with
  | [] => []
  | c :: rest =>
    if headMatches pat (c :: rest) then repl ++ (c :: rest).drop pat.length
    else c :: replaceFirst rest pat repl

/-- strings.TrimSpace (ASCII whitespace; the arguments occurring in the
claims contain none). -/
def trimSpace (s : Str) : Str :=
  ((s.dropWhile isSpaceCh).reverse.dropWhile isSpaceCh).reverse

/-- Loop of Parser.parseArguments: split on commas at parenthesis depth
zero; every comma emits the (trimmed) current chunk, and a final
nonempty chunk is emitted at the end. -/
def parseArgsAux (depth : ℤ) (cur : Str) (acc : List Str) : Str → List Str
  | [] => if cur.length > 0 then acc ++ [trimSpace cur] else acc
  | c :: rest =>
    if c = '(' then parseArgsAux (depth + 1) (cur ++ [c]) acc rest
    else if c = ')' then parseArgsAux (depth - 1) (cur ++ [c]) acc rest
    else if c = ',' then
      (if depth = 0 then parseArgsAux depth [] (acc ++ [trimSpace cur]) rest
       else parseArgsAux depth (cur ++ [c]) acc rest)
    else parseArgsAux depth (cur ++ [c]) acc rest

/-- Parser.parseArguments (the Go version can signal errors but never
does). -/
def parseArguments (argsStr : Str) : List Str :=
  if argsStr = [] then [] else parseArgsAux 0 [] [] argsStr

/-- utils.DegreesToRadians, with the float64 constant math.Pi. -/
def DegreesToRadians (degrees : Q) : Q := degrees * piQ / 180

/-- strings.HasSuffix(name, "h"), the hyperbolic-family test. -/
def endsWithH (name : Str) : Bool := decide (name.getLast? = some 'h')

/-- Parser.evaluateTrigFunction: degree-to-radian conversion for the
non-hyperbolic family in degree mode, then dispatch. -/
def evaluateTrigFunction (deg : Bool) (name : Str) (arg0 : Q) : Except String Q :=
  let arg := if deg && !endsWithH name then DegreesToRadians arg0 else arg0
  if name = strL "sin" then .ok (sinModel arg)
  else if name = strL "cos" then .ok (cosModel arg)
  else if name = strL "tan" then .ok (tanModel arg)
  else if name = strL "asin" then CalcAsin arg
  else if name = strL "acos" then CalcAcos arg
  else if name = strL "atan" then .ok (atanModel arg)
  else if name = strL "sinh" then .ok (sinhModel arg)
  else if name = strL "cosh" then .ok (coshModel arg)
  else if name = strL "tanh" then .ok (tanhModel arg)
  else .error ("unknown trigonometric function: " ++ ⟨name⟩)

/-- Parser.evaluateMathFunction. -/
def evaluateMathFunction (name : Str) (arg : Q) : Except String Q :=
  if name = strL "sqrt" then CalcSqrt arg
  else if name = strL "cbrt" then .ok (cbrtModel arg)
  else if name = strL "log" then CalcLog arg
  else if name = strL "log10" then CalcLog10 arg
  else if name = strL "exp" then .ok (expModel arg)
  else if name = strL "abs" then .ok (CalcAbs arg)
  else .error ("unknown math function: " ++ ⟨name⟩)

/-- math.Round: round half away from zero. -/
def roundHalfAway (x : Q) : ℤ :=
  if x < 0 then -Int.floor (-x + 1 / 2) else Int.floor (x + 1 / 2)

/-- Parser.evaluateRounding: scale by 10^precision, round/floor/ceil,
scale back (math.Pow(10, n) is exact for the integer n = int(args[1])). -/
def evaluateRounding (name : Str) (value : Q) (precision : ℤ) : Except String Q :=
  let multiplier : Q := CalcPower 10 (precision : Q)
  if name = strL "round" then .ok ((roundHalfAway (value * multiplier) : Q) / multiplier)
  else if name = strL "floor" then .ok ((Int.floor (value * multiplier) : Q) / multiplier)
  else if name = strL "ceil" then .ok ((Int.ceil (value * multiplier) : Q) / multiplier)
  else .ok value

/-- Parser.min (fold over the argument list). -/
def minList (values : List Q) : Q :=
  match values with
  | [] => 0
  | v :: rest => rest.foldl (fun m x => if x < m then x else m) v

/-- Parser.max. -/
def maxList (values : List Q) : Q :=
  match values with
  | [] => 0
  | v :: rest => rest.foldl (fun m x => if m < x then x else m) v

/-- Membership in the trig/hyperbolic case of the dispatch switch. -/
def isTrigName (n : Str) : Bool :=
  decide (n = strL "sin") || decide (n = strL "cos") || decide (n = strL "tan") ||
  decide (n = strL "asin") || decide (n = strL "acos") || decide (n = strL "atan") ||
  decide (n = strL "sinh") || decide (n = strL "cosh") || decide (n = strL "tanh")

/-- Membership in the sqrt/cbrt/log/log10/exp/abs case. -/
def isMathName (n : Str) : Bool :=
  decide (n = strL "sqrt") || decide (n = strL "cbrt") || decide (n = strL "log") ||
  decide (n = strL "log10") || decide (n = strL "exp") || decide (n = strL "abs")

/-- The switch of Parser.evaluateFunction once the argument values are
known: arity checks and dispatch.  Note this switch does implement pow,
min, max, round, floor and ceil - names the validator rejects earlier
(claim C6). -/
def dispatchFunction (deg : Bool) (name : Str) (argValues : List Q) : Except String Q :=
  if isTrigName name then
    match argValues with
    | [v] => evaluateTrigFunction deg name v
    | _ => .error ("function " ++ ⟨name⟩ ++ " expects 1 argument")
  else if isMathName name then
    match argValues with
    | [v] => evaluateMathFunction name v
    | _ => .error ("function " ++ ⟨name⟩ ++ " expects 1 argument")
  else if name = strL "pow" then
    match argValues with
    | [a, b] => .ok (CalcPower a b)
    | _ => .error "pow expects 2 arguments"
  else if name = strL "min" then
    match argValues with
    | [] => .error "min expects at least 1 argument"
    | _ => .ok (minList argValues)
  else if name = strL "max" then
    match argValues with
    | [] => .error "max expects at least 1 argument"
    | _ => .ok (maxList argValues)
  else if name = strL "round" ∨ name = strL "floor" ∨ name = strL "ceil" then
    match argValues with
    | [v] => evaluateRounding name v 0
    | [v, p] => evaluateRounding name v (truncQ p)
    | _ => .error (String.mk name ++ " expects 1 or 2 arguments")
  else .error ("unknown function: " ++ ⟨name⟩)

/-- Sequential evaluation of function arguments (the loop of
Parser.evaluateFunction), threading the parser state and wrapping the
first failure. -/
def evalArgs (ev : Str → ParserState → Except String Q × ParserState) :
    List Str → ParserState → Except String (List Q) × ParserState
  | [], st => (.ok [], st)
  | a :: rest, st =>
    match ev a st with
    | (.error err, st2) => (.error ("error in function argument: " ++ err), st2)
    | (.ok v, st2) =>
      match evalArgs ev rest st2 with
      | (.error err, st3) => (.error err, st3)
      | (.ok vs, st3) => (.ok (v :: vs), st3)

/-- The three mutually recursive stateful procedures of the parser
(Parser.EvaluateExpression, Parser.processFunctions,
Parser.evaluateFunction), tied by step-indexing instead of Go's
unbounded recursion: component 1 is EvaluateExpression, component 2.1
processFunctions, component 2.2 evaluateFunction.

Each processFunctions iteration removes one closing parenthesis from the
expression and spends one unit of fuel, and argument strings (which
never contain a closing parenthesis) spend exactly one more unit before
their own processFunctions finds no match, so length + 2 units always
suffice - the wrapper EvaluateExpression below supplies them, making the
fuel-exhaustion stub unreachable (this mirrors the termination argument
for the Go loop). -/
def engine : Nat →
    ((Str → ParserState → Except String Q × ParserState) ×
     (Str → ParserState → Except String Str × ParserState) ×
     (Str → Str → ParserState → Except String Q × ParserState))
  | 0 =>
    (fun _ st => (.error "recursion limit", st),
     fun _ st => (.error "recursion limit", st),
     fun _ _ st => (.error "recursion limit", st))
  | n + 1 =>
    let prev := engine n
    let proc : Str → ParserState → Except String Str × ParserState := fun e st =>
      match findFuncMatch e with
      | none => (.ok e, st)
      | some fm =>
        match prev.2.2 fm.fname fm.args st with
        | (.error err, st2) => (.error err, st2)
        | (.ok v, st2) => prev.2.1 (replaceFirst e fm.full (formatF10 v)) st2
    let eval : Str → ParserState → Except String Q × ParserState := fun e st =>
      if e = [] then (.error "empty expression", st)
      else
        match ValidateExpression e with
        | .error err => (.error ("invalid expression: " ++ err), st)
        | .ok () =>
          let st1 := { st with ansConst := st.calcSt.lastResult }
          let e1 := substConstants st1 ((e.filter (fun c => !decide (c = ' '))).map lowerChar)
          match proc e1 st1 with
          | (.error err, st2) => (.error err, st2)
          | (.ok e2, st2) =>
            match evaluate e2 with
            | .error err => (.error err, st2)
            | .ok r =>
              (.ok r, { st2 with calcSt := AddToHistory (SetLastResult st2.calcSt r) e r })
    let func : Str → Str → ParserState → Except String Q × ParserState :=
      fun name args st =>
        match evalArgs eval (parseArguments args) st with
        | (.error err, st2) => (.error err, st2)
        | (.ok vals, st2) => (dispatchFunction st2.angleDeg name vals, st2)
    (eval, proc, func)

/-- Parser.EvaluateExpression at a given fuel. -/
def EvaluateExpressionFuel (n : Nat) : Str → ParserState → Except String Q × ParserState :=
  (engine n).1

/-- Parser.processFunctions at a given fuel. -/
def processFunctionsFuel (n : Nat) : Str → ParserState → Except String Str × ParserState :=
  (engine n).2.1

/-- Parser.evaluateFunction at a given fuel. -/
def evaluateFunctionFuel (n : Nat) : Str → Str → ParserState → Except String Q × ParserState :=
  (engine n).2.2

/-- Parser.EvaluateExpression: the public entry point, with fuel that
always suffices (see engine). -/
def EvaluateExpression (e : Str) (st : ParserState) : Except String Q × ParserState :=
  EvaluateExpressionFuel (e.length + 2) e st

/-- Decidable equality of results (used by the concrete theorems). -/
instance {ε α : Type} [DecidableEq ε] [DecidableEq α] : DecidableEq (Except ε α) :=
  fun x y =>
    match x, y with
    | .ok a, .ok b =>
      if h : a = b then isTrue (by rw [h])
      else isFalse (fun hh => h (by cases hh; rfl))
    | .error a, .error b =>
      if h : a = b then isTrue (by rw [h])
      else isFalse (fun hh => h (by cases hh; rfl))
    | .ok _, .error _ => isFalse (fun hh => by cases hh)
    | .error _, .ok _ => isFalse (fun hh => by cases hh)

/-! ## Unfolding equations for the fueled engine -/

/-- One step of EvaluateExpressionFuel (definitional). -/
theorem evalFuel_succ (n : Nat) (e : Str) (st : ParserState) :
    EvaluateExpressionFuel (n + 1) e st =
      (if e = [] then (.error "empty expression", st)
       else
         match ValidateExpression e with
         | .error err => (.error ("invalid expression: " ++ err), st)
         | .ok () =>
           match
             processFunctionsFuel (n + 1)
               (substConstants { st with ansConst := st.calcSt.lastResult }
                 ((e.filter (fun c => !decide (c = ' '))).map lowerChar))
               { st with ansConst := st.calcSt.lastResult } with
           | (.error err, st2) => (.error err, st2)
           | (.ok e2, st2) =>
             match evaluate e2 with
             | .error err => (.error err, st2)
             | .ok r => (.ok r, { st2 with calcSt := AddToHistory (SetLastResult st2.calcSt r) e r })) := rfl

/-- One step of processFunctionsFuel (definitional). -/
theorem procFuel_succ (n : Nat) (e : Str) (st : ParserState) :
    processFunctionsFuel (n + 1) e st =
      (match findFuncMatch e with
       | none => (.ok e, st)
       | some fm =>
         match evaluateFunctionFuel n fm.fname fm.args st with
         | (.error err, st2) => (.error err, st2)
         | (.ok v, st2) => processFunctionsFuel n (replaceFirst e fm.full (formatF10 v)) st2) := rfl

/-! ## Claim theorems -/

set_option maxRecDepth 8000

unseal Rat.add Rat.mul Rat.inv Rat.sub Rat.ofScientific

/-- C1: the spec claims nested function calls are resolved
innermost-first and evaluate to the expected result.  In the code the
leftmost funcRegex match on sin(cos(1)) is the OUTER name with the
argument text truncated at the first closing parenthesis (second
conjunct), so the recursive evaluation of the argument "cos(1)" minus
its closing parenthesis fails validation, and the whole evaluation
returns an error (first conjunct) - while the same call without nesting
succeeds (third conjunct). -/
theorem c1_nested_call_fails :
    (EvaluateExpression (strL "sin(cos(1))") initState).1 =
      .error "error in function argument: invalid expression: unbalanced parentheses" ∧
    findFuncMatch (strL "sin(cos(1))") =
      some { full := strL "sin(cos(1)", fname := strL "sin", args := strL "cos(1" } ∧
    (EvaluateExpression (strL "cos(1)") initState).1.isOk = true := by
  refine ⟨by decide, by decide, by decide⟩

/-- C2: the spec claims NaN/Infinity are never delivered as success.
The evaluation pipeline applies calculator.Power with no finiteness or
domain check: 2^1100 evaluates to a successful result (in exact
arithmetic the value 2^1100; in Go's float64 the same computation
overflows to +Inf, which is returned to the caller with a nil error). -/
theorem c2_huge_power_returned_as_success :
    (EvaluateExpression (strL "2^1100") initState).1 = .ok ((2 : Q) ^ (1100 : ℕ)) := by
  have h : ((2 : Q) ^ (1100 : ℕ)) = qpowNat 2 1100 := (qpowNat_eq 2 1100).symm
  rw [h]
  decide

/-- C4: the spec claims 171! is rejected as a DomainError while 170!
succeeds.  In the code both succeed: calculator.Factorial checks only
negativity/integrality and computes the full product (first and second
conjuncts; in float64 the product for 171 overflows to +Inf and is
returned as success).  The 170 bound exists only in
utils.ValidateFactorialArgument (third conjunct), which no code calls. -/
theorem c4_factorial_bound_unenforced :
    (EvaluateExpression (strL "170!") initState).1 = .ok (Nat.factorial 170 : Q) ∧
    (EvaluateExpression (strL "171!") initState).1 = .ok (Nat.factorial 171 : Q) ∧
    CalcFactorial 171 = .ok (Nat.factorial 171 : Q) ∧
    ValidateFactorialArgument 171 = .error "factorial too large for calculation" := by
  refine ⟨by decide, by decide, by decide, by decide⟩

/-- C5: the spec claims 0^0 is a DomainError.  In the code the ^
operator calls calculator.Power, which wraps math.Pow without any check
(math.Pow(0, 0) = 1), so evaluation of 0^0 succeeds with 1; the
intended check exists only in utils.ValidatePower, which no code calls. -/
theorem c5_zero_pow_zero_succeeds :
    (EvaluateExpression (strL "0^0") initState).1 = .ok 1 ∧
    CalcPower 0 0 = 1 ∧
    ValidatePower 0 0 = .error "0^0 or 0^(negative) is undefined" := by
  refine ⟨by decide, by decide, by decide⟩

/-- C6: the spec claims the validation registry contains pow, min, max,
round, floor and ceil and that pow(2,3) evaluates to 8.  In the code
utils.ValidateFunctionCalls knows only the fifteen names sin..abs and
rejects pow as unknown (first conjunct); the full pipeline rejects
pow(2,3) even earlier, because the character whitelist has no comma
(second conjunct); yet the dispatcher itself implements pow and would
compute 8 (third conjunct).  Names of the actual registry pass the
check (fourth conjunct) and other names fail it (fifth). -/
theorem c6_pow_rejected_by_validator :
    ValidateFunctionCalls (strL "pow(2,3)") = .error "unknown function: pow" ∧
    (EvaluateExpression (strL "pow(2,3)") initState).1 =
      .error "invalid expression: invalid characters in expression" ∧
    (evaluateFunctionFuel 5 (strL "pow") (strL "2,3") initState).1 = .ok 8 ∧
    ValidateFunctionCalls (strL "sin(1)+cos(2)*sqrt(3)") = .ok () ∧
    ValidateFunctionCalls (strL "foo(1)") = .error "unknown function: foo" := by
  refine ⟨by decide, by decide, by decide, by decide, by decide⟩

/-- C9: every expression containing "/0" but not "/0." fails validation
(first conjunct, stated as: validation can only succeed when the
substring test is off); on 8/02 the error is exactly the
potential-division-by-zero one and evaluation fails despite 8/02 = 4
(second and third conjuncts); any "/0." occurrence disables the check
for the whole expression, e.g. 8/0.5 evaluates fine (fourth conjunct). -/
theorem c9_division_heuristic :
    (∀ e : Str, ValidateExpression e = .ok () →
       containsSub (strL "/0") e = false ∨ containsSub (strL "/0.") e = true) ∧
    ValidateExpression (strL "8/02") = .error "potential division by zero" ∧
    (EvaluateExpression (strL "8/02") initState).1 =
      .error "invalid expression: potential division by zero" ∧
    (EvaluateExpression (strL "8/0.5") initState).1 = .ok 16 := by
  refine ⟨?_, by decide, by decide, by decide⟩
  intro e h
  unfold ValidateExpression at h
  split at h
  · exact Except.noConfusion h
  split at h
  · exact Except.noConfusion h
  split at h
  · exact Except.noConfusion h
  split at h
  · exact Except.noConfusion h
  split at h
  · exact Except.noConfusion h
  · rename_i hcond
    by_cases h1 : containsSub (strL "/0") e = true
    · by_cases h2 : containsSub (strL "/0.") e = true
      · exact Or.inr h2
      · exact absurd ⟨h1, h2⟩ hcond
    · exact Or.inl (Bool.not_eq_true _ ▸ h1)

/-- Witness for the universal part of C9 at a concrete input. -/
theorem c9_division_heuristic_witness :
    containsSub (strL "/0") (strL "1+1") = false ∨
    containsSub (strL "/0.") (strL "1+1") = true :=
  c9_division_heuristic.1 (strL "1+1") (by decide)

/-- C10: every entry GetHistory returns carries Result 0 and the
timestamp of the GetHistory call itself, its Expression being one of the
stored strings; and what AddToHistory stores is the single formatted
line "expr = result" - the only place the numeric result survives. -/
theorem c10_history_entry_shape :
    (∀ (c : CalcState) (now : Nat) (ent : HistoryEntry),
        ent ∈ GetHistory c now →
        ent.Result = 0 ∧ ent.Timestamp = now ∧ ent.Expression ∈ c.history) ∧
    (∀ (c : CalcState) (e : Str) (r : Q),
        (AddToHistory c e r).history.getLast? =
          some (e ++ ' ' :: '=' :: ' ' :: formatG6 r)) := by
  constructor
  · intro c now ent hm
    simp only [GetHistory, List.mem_map] at hm
    obtain ⟨en, hen, rfl⟩ := hm
    exact ⟨rfl, rfl, hen⟩
  · intro c e r
    unfold AddToHistory
    simp only []
    split
    · rename_i hlen
      have hne : 1 ≤ c.history.length := by
        by_contra h0
        have : c.history = [] := by
          cases hq : c.history
          · rfl
          · rw [hq] at h0; simp at h0
        rw [this] at hlen
        simp at hlen
      rw [List.drop_append_of_le_length hne]
      exact List.getLast?_concat _
    · exact List.getLast?_concat _

/-- Witness for C10 at a concrete state. -/
theorem c10_history_entry_shape_witness :
    ({ Expression := strL "x", Result := 0, Timestamp := 7 } : HistoryEntry).Result = 0 ∧
    ({ Expression := strL "x", Result := 0, Timestamp := 7 } : HistoryEntry).Timestamp = 7 ∧
    ({ Expression := strL "x", Result := 0, Timestamp := 7 } : HistoryEntry).Expression ∈
      [strL "x"] :=
  c10_history_entry_shape.1 { memory := 0, lastResult := 0, history := [strL "x"] } 7
    { Expression := strL "x", Result := 0, Timestamp := 7 } (by decide)

/-! ## State preservation on failure without function calls (claim C3) -/

/-- Lowercasing never creates an opening parenthesis. -/
theorem lowerChar_ne_lparen {c : Char} (h : ¬ c = '(') : ¬ lowerChar c = '(' := by
  intro hq
  unfold lowerChar at hq
  rcases hf : lowerTable.find? (fun p => p.1 == c) with _ | p
  · rw [hf] at hq
    exact h hq
  · rw [hf] at hq
    have hp : p ∈ lowerTable := List.mem_of_find?_eq_some hf
    have hall : ∀ x ∈ lowerTable, ¬ x.2 = '(' := by decide
    exact hall p hp hq

/-- digitChar always yields a decimal digit character. -/
theorem isDigitCh_digitChar (d : Nat) : isDigitCh (digitChar d) = true := by
  unfold digitChar
  split <;> decide

/-- Every character of natDigitsAux is a decimal digit. -/
theorem mem_natDigitsAux {f n : Nat} {c : Char} (h : c ∈ natDigitsAux f n) :
    isDigitCh c = true := by
  induction f generalizing n with
  | zero => exact absurd h (by simp [natDigitsAux])
  | succ f ih =>
    unfold natDigitsAux at h
    split at h
    · rw [List.mem_singleton] at h
      rw [h]; exact isDigitCh_digitChar n
    · rw [List.mem_append] at h
      rcases h with h | h
      · exact ih h
      · rw [List.mem_singleton] at h
        rw [h]; exact isDigitCh_digitChar _

/-- The %.10f output contains no opening parenthesis. -/
theorem formatF10_no_lparen (q : Q) : '(' ∉ formatF10 q := by
  intro hmem
  have hdig : ∀ m : Nat, '(' ∈ natDigits m → False := by
    intro m hm
    have := mem_natDigitsAux (f := m + 1) (n := m) hm
    simp [isDigitCh] at this
  have habs : ∀ r : Q, '(' ∈ f10abs r → False := by
    intro r hr
    unfold f10abs at hr
    rw [List.mem_append] at hr
    rcases hr with hr | hr
    · exact hdig _ hr
    · rw [List.mem_cons] at hr
      rcases hr with hr | hr
      · exact absurd hr (by decide)
      · unfold padZeros at hr
        rw [List.mem_append] at hr
        rcases hr with hr | hr
        · exact absurd (List.eq_of_mem_replicate hr) (by decide)
        · exact hdig _ hr
  unfold formatF10 at hmem
  split at hmem
  · rw [List.mem_cons] at hmem
    rcases hmem with hmem | hmem
    · exact absurd hmem (by decide)
    · exact habs _ hmem
  · exact habs _ hmem

/-- rwAux preserves the absence of an opening parenthesis when the
replacement has none. -/
theorem rwAux_no_lparen (name repl : Str) (hrepl : '(' ∉ repl) :
    ∀ (f : Nat) (prev : Option Char) (s : Str), '(' ∉ s →
    '(' ∉ rwAux name repl f prev s := by
  intro f
  induction f with
  | zero => intro prev s hs; exact hs
  | succ f ih =>
    intro prev s hs
    rcases s with _ | ⟨c, rest⟩
    · rw [show rwAux name repl (f + 1) prev [] = [] from rfl]
      simp
    · have hc : ¬ c = '(' := fun hcq => hs (hcq ▸ List.mem_cons_self c rest)
      have hrest : '(' ∉ rest := fun hr => hs (List.mem_cons_of_mem c hr)
      have hstep : rwAux name repl (f + 1) prev (c :: rest) =
          (if name ≠ [] ∧ headMatches name (c :: rest) = true ∧
              isWordOpt prev = false ∧
              boundaryOkAfter ((c :: rest).drop name.length) = true then
            repl ++ rwAux name repl f name.getLast? ((c :: rest).drop name.length)
          else c :: rwAux name repl f (some c) rest) := rfl
      rw [hstep]
      by_cases hcond : (name ≠ [] ∧ headMatches name (c :: rest) = true ∧
          isWordOpt prev = false ∧ boundaryOkAfter ((c :: rest).drop name.length) = true)
      · rw [if_pos hcond]
        intro hmem
        rcases List.mem_append.mp hmem with hmem | hmem
        · exact hrepl hmem
        · exact ih _ _ (fun hd => hs (List.mem_of_mem_drop hd)) hmem
      · rw [if_neg hcond]
        intro hmem
        rcases List.mem_cons.mp hmem with hmem | hmem
        · exact hc hmem.symm
        · exact ih _ _ hrest hmem

/-- The variable-substitution fold preserves the absence of an opening
parenthesis. -/
theorem foldlSubst_no_lparen : ∀ (l : List (Str × Q)) (acc : Str), '(' ∉ acc →
    '(' ∉ l.foldl (fun acc nv => replaceWordAll nv.1 (formatF10 nv.2) acc) acc := by
  intro l
  induction l with
  | nil => intro acc h; exact h
  | cons v vs ih =>
    intro acc h
    simp only [List.foldl_cons]
    exact ih _ (rwAux_no_lparen _ _ (formatF10_no_lparen _) _ _ _ h)

/-- substConstants preserves the absence of an opening parenthesis. -/
theorem substConstants_no_lparen (st : ParserState) (e : Str) (he : '(' ∉ e) :
    '(' ∉ substConstants st e := by
  unfold substConstants
  exact foldlSubst_no_lparen _ _
    (rwAux_no_lparen _ _ (formatF10_no_lparen _) _ _ _
      (rwAux_no_lparen _ _ (formatF10_no_lparen _) _ _ _
        (rwAux_no_lparen _ _ (formatF10_no_lparen _) _ _ _ he)))

/-- Without an opening parenthesis funcRegex cannot match. -/
theorem findFuncMatch_none_of_no_lparen : ∀ (s : Str), '(' ∉ s →
    findFuncMatch s = none := by
  intro s
  induction s with
  | nil => intro _; rfl
  | cons c rest ih =>
    intro hs
    have hrest : '(' ∉ rest := fun hr => hs (List.mem_cons_of_mem c hr)
    unfold findFuncMatch
    split
    · split
      · rename_i heq
        exfalso
        have hsub : '(' ∈ (c :: rest).dropWhile isWordCh := by
          rw [heq]; exact List.mem_cons_self _ _
        exact hs ((List.dropWhile_sublist _).mem hsub)
      · exact ih hrest
    · exact ih hrest

/-- C3 counterexample: the claim says a failed top-level evaluation
leaves lastResult and history untouched.  On abs(4)+ the preprocessing
resolves abs(4) by recursively evaluating the argument 4 through the
full pipeline - which succeeds and therefore writes lastResult and a
history line - and only afterwards does the surrounding evaluation fail
on the dangling +; the failed call returns with mutated state. -/
theorem c3_failed_eval_mutates_state :
    (EvaluateExpression (strL "abs(4)+") initState).1 =
      .error "insufficient operands for operator +" ∧
    (EvaluateExpression (strL "abs(4)+") initState).2.calcSt.lastResult = 4 ∧
    initState.calcSt.lastResult = 0 ∧
    (EvaluateExpression (strL "abs(4)+") initState).2.calcSt.history ≠
      initState.calcSt.history := by
  refine ⟨by decide, by decide, by decide, by decide⟩

/-- C3 amended: failed evaluations of expressions containing no opening
parenthesis (hence no function call for the preprocessor to resolve)
leave the calculator state - lastResult and history - exactly as it
was.  (The recursive argument evaluation inside function calls is the
only way a failing evaluation mutates state.) -/
theorem c3_no_call_failure_preserves_state (e : Str) (st : ParserState)
    (hpar : '(' ∉ e) (herr : (EvaluateExpression e st).1.isOk = false) :
    (EvaluateExpression e st).2.calcSt = st.calcSt := by
  unfold EvaluateExpression at herr ⊢
  rw [show e.length + 2 = (e.length + 1) + 1 from rfl, evalFuel_succ] at herr ⊢
  by_cases he : e = []
  · rw [if_pos he] at herr ⊢
  · rw [if_neg he] at herr ⊢
    have hsub : '(' ∉ substConstants { st with ansConst := st.calcSt.lastResult }
        ((e.filter (fun c => !decide (c = ' '))).map lowerChar) := by
      apply substConstants_no_lparen
      intro hmem
      rw [List.mem_map] at hmem
      obtain ⟨c, hc, hlc⟩ := hmem
      have hcne : ¬ c = '(' := by
        intro hcq
        subst hcq
        exact hpar (List.mem_of_mem_filter hc)
      exact lowerChar_ne_lparen hcne hlc
    have hproc : processFunctionsFuel (e.length + 1 + 1)
        (substConstants { st with ansConst := st.calcSt.lastResult }
          ((e.filter (fun c => !decide (c = ' '))).map lowerChar))
        { st with ansConst := st.calcSt.lastResult } =
        (.ok (substConstants { st with ansConst := st.calcSt.lastResult }
          ((e.filter (fun c => !decide (c = ' '))).map lowerChar)),
         { st with ansConst := st.calcSt.lastResult }) := by
      rw [show e.length + 1 + 1 = (e.length + 1) + 1 from rfl, procFuel_succ,
        findFuncMatch_none_of_no_lparen _ hsub]
    cases hv : ValidateExpression e with
    | error err =>
      rfl
    | ok u =>
      cases u
      rw [hv] at herr
      dsimp only at herr ⊢
      rw [hproc] at herr ⊢
      dsimp only at herr ⊢
      cases hev : evaluate (substConstants { st with ansConst := st.calcSt.lastResult }
          ((e.filter (fun c => !decide (c = ' '))).map lowerChar)) with
      | error err2 => rfl
      | ok r =>
        rw [hev] at herr
        dsimp only [Except.isOk, Except.toBool] at herr
        exact absurd herr (by decide)

/-- Witness for the C3 amended theorem at a concrete failing input. -/
theorem c3_no_call_failure_preserves_state_witness :
    (EvaluateExpression (strL "2+*3") initState).2.calcSt = initState.calcSt :=
  c3_no_call_failure_preserves_state (strL "2+*3") initState (by decide) (by decide)

/-! ## Trailing-factorial structure (claim C8) -/

/-- A contained character makes the single-character substring test
succeed. -/
theorem containsSub_singleton_of_mem {c : Char} : ∀ {l : Str}, c ∈ l →
    containsSub [c] l = true := by
  intro l
  induction l with
  | nil => intro h; exact absurd h (by simp)
  | cons x rest ih =>
    intro h
    unfold containsSub
    rcases List.mem_cons.mp h with h | h
    · subst h
      simp [headMatches]
    · rw [ih h]
      simp

/-- lastIndexOf over an appended suffix that contains the character. -/
theorem lastIndexOf_append_some {c : Char} {ys : Str} {j : Nat}
    (h : lastIndexOf c ys = some j) :
    ∀ xs : Str, lastIndexOf c (xs ++ ys) = some (xs.length + j) := by
  intro xs
  induction xs with
  | nil => simpa using h
  | cons a rest ih =>
    show lastIndexOf c (a :: (rest ++ ys)) = _
    unfold lastIndexOf
    rw [ih]
    simp
    omega

/-- The last index of the bang inside a nonempty bang run. -/
theorem lastIndexOf_replicate_bang : ∀ k : Nat, 1 ≤ k →
    lastIndexOf '!' (List.replicate k '!') = some (k - 1) := by
  intro k
  induction k with
  | zero => intro h; omega
  | succ k ih =>
    intro _
    by_cases hk : 1 ≤ k
    · show lastIndexOf '!' ('!' :: List.replicate k '!') = _
      unfold lastIndexOf
      rw [ih hk]
      simp
      omega
    · have hk0 : k = 0 := by omega
      subst hk0
      decide

/-- Composing factorial iterations. -/
theorem iterFact_add : ∀ (m n : Nat) (v : Q),
    (match iterFact m v with
     | .error err => .error err
     | .ok w => iterFact n w) = iterFact (m + n) v := by
  intro m
  induction m with
  | zero =>
    intro n v
    rw [Nat.zero_add]
    rfl
  | succ m ih =>
    intro n v
    rw [show m + 1 + n = (m + n) + 1 from by omega]
    show (match (match CalcFactorial v with
                 | Except.error err => (Except.error err : Except String Q)
                 | Except.ok r => iterFact m r) with
          | Except.error err => (Except.error err : Except String Q)
          | Except.ok w => iterFact n w) =
         (match CalcFactorial v with
          | Except.error err => (Except.error err : Except String Q)
          | Except.ok r => iterFact (m + n) r)
    cases CalcFactorial v with
    | error err => rfl
    | ok r => exact ih n r

/-- One step of evaluateFuel (definitional). -/
theorem evaluateFuel_succ (f : Nat) (e : Str) :
    evaluateFuel (f + 1) e =
      (if containsSub ['!'] e then
        match lastIndexOf '!' e with
        | none => .error "no factorial operator found"
        | some i =>
          match evaluateFuel f (e.take i) with
          | .error err => .error err
          | .ok base => iterFact (e.length - i) base
      else
        match shuntingYard (processUnaryOperators (tokenizeF e)) with
        | .error err => .error err
        | .ok rpn => evaluateRPN rpn) := rfl

/-- C8: trailing exclamation marks bind to the whole expression on their
left: evaluating s followed by k bangs first evaluates s (whatever it
is), then applies Factorial k times - via the evaluateWithFactorial
recursion that strips one bang per step.  The examples of the spec:
5! is 120 and 5!! is (5!)!. -/
theorem c8_trailing_factorials :
    (∀ (s : Str) (k : Nat),
        evaluate (s ++ List.replicate k '!') =
          match evaluate s with
          | .error err => (.error err : Except String Q)
          | .ok v => iterFact k v) ∧
    (EvaluateExpression (strL "5!") initState).1 = .ok 120 ∧
    (EvaluateExpression (strL "5!!") initState).1 = .ok (Nat.factorial 120 : Q) := by
  refine ⟨?_, by decide, by decide⟩
  intro s k
  induction k with
  | zero =>
    simp only [List.replicate, List.append_nil]
    cases evaluate s with
    | error err => rfl
    | ok v => rfl
  | succ k ih =>
    have hmem : '!' ∈ s ++ List.replicate (k + 1) '!' := by
      rw [List.mem_append]
      exact Or.inr (List.mem_replicate.mpr ⟨by omega, rfl⟩)
    have hcont := containsSub_singleton_of_mem hmem
    have hlast : lastIndexOf '!' (s ++ List.replicate (k + 1) '!') =
        some (s.length + k) := by
      rw [lastIndexOf_append_some (lastIndexOf_replicate_bang (k + 1) (by omega)) s]
      simp
    have htake : (s ++ List.replicate (k + 1) '!').take (s.length + k) =
        s ++ List.replicate k '!' := by
      rw [List.take_append, List.take_replicate]
      congr 2
      omega
    rw [show evaluate (s ++ List.replicate (k + 1) '!') =
        evaluateFuel ((s.length + k + 1) + 1) (s ++ List.replicate (k + 1) '!') from by
      unfold evaluate
      congr 1
      simp only [List.length_append, List.length_replicate]
      omega]
    rw [evaluateFuel_succ, if_pos hcont, hlast]
    dsimp only
    rw [htake]
    rw [show evaluateFuel (s.length + k + 1) (s ++ List.replicate k '!') =
        evaluate (s ++ List.replicate k '!') from by
      unfold evaluate
      congr 1
      simp]
    rw [ih]
    rw [show (s ++ List.replicate (k + 1) '!').length - (s.length + k) = 1 from by
      simp only [List.length_append, List.length_replicate]
      omega]
    cases evaluate s with
    | error err => dsimp only
    | ok v =>
      dsimp only
      show (match iterFact k v with
            | Except.error err => (Except.error err : Except String Q)
            | Except.ok w => iterFact 1 w) = iterFact (k + 1) v
      exact iterFact_add k 1 v

/-! ## Standard arithmetic on expression strings (the specification side
of claim C7).

Forms lv s v is the specification-side reading of the claim: the string
s is a well-formed arithmetic expression (numeric literals, the four
binary operators, parentheses) of grammar level lv, and standard
left-to-right, precedence-respecting arithmetic gives it the value v.
The three levels encode precedence: an expr is a left-associated chain
of terms under + and -, a term a left-associated chain of atoms under *
and /, an atom a literal or a parenthesised expr.  Division carries the
side condition that the divisor is nonzero (otherwise standard
arithmetic assigns no value). -/

/-- Grammar levels. -/
inductive Lv
  | atom
  | term
  | expr

/-- Well-formed arithmetic expression strings and their standard
values. -/
inductive Forms : Lv → Str → Q → Prop
  | lit (ds : Str) (hne : ds ≠ []) (hds : ∀ c ∈ ds, isDigitCh c = true) :
      Forms .atom ds (natVal ds)
  | paren {s : Str} {v : Q} : Forms .expr s v → Forms .atom ('(' :: s ++ [')']) v
  | atomTerm {s : Str} {v : Q} : Forms .atom s v → Forms .term s v
  | mul {s t : Str} {v w : Q} : Forms .term s v → Forms .atom t w →
      Forms .term (s ++ '*' :: t) (v * w)
  | div {s t : Str} {v w : Q} : Forms .term s v → Forms .atom t w → w ≠ 0 →
      Forms .term (s ++ '/' :: t) (v / w)
  | termExpr {s : Str} {v : Q} : Forms .term s v → Forms .expr s v
  | add {s t : Str} {v w : Q} : Forms .expr s v → Forms .term t w →
      Forms .expr (s ++ '+' :: t) (v + w)
  | sub {s t : Str} {v w : Q} : Forms .expr s v → Forms .term t w →
      Forms .expr (s ++ '-' :: t) (v - w)

/-- The character alphabet of the arithmetic fragment. -/
def simpleChar (c : Char) : Bool :=
  isDigitCh c || decide (c = '+') || decide (c = '-') || decide (c = '*') ||
  decide (c = '/') || decide (c = '(') || decide (c = ')')

/-- Well-formed arithmetic strings are nonempty and stay inside the
fragment alphabet. -/
theorem Forms_facts {lv : Lv} {s : Str} {v : Q} (h : Forms lv s v) :
    s ≠ [] ∧ ∀ c ∈ s, simpleChar c = true := by
  induction h with
  | lit ds hne hds =>
    refine ⟨hne, fun c hc => ?_⟩
    unfold simpleChar
    rw [hds c hc]
    simp
  | paren _ ih =>
    refine ⟨by simp, fun c hc => ?_⟩
    rcases List.mem_cons.mp hc with hc | hc
    · subst hc; decide
    · rcases List.mem_append.mp hc with hc | hc
      · exact ih.2 c hc
      · rw [List.mem_singleton] at hc
        subst hc; decide
  | atomTerm _ ih => exact ih
  | termExpr _ ih => exact ih
  | mul _ _ ih1 ih2 =>
    refine ⟨by simp [ih1.1], fun c hc => ?_⟩
    rcases List.mem_append.mp hc with hc | hc
    · exact ih1.2 c hc
    · rcases List.mem_cons.mp hc with hc | hc
      · subst hc; decide
      · exact ih2.2 c hc
  | div _ _ _ ih1 ih2 =>
    refine ⟨by simp [ih1.1], fun c hc => ?_⟩
    rcases List.mem_append.mp hc with hc | hc
    · exact ih1.2 c hc
    · rcases List.mem_cons.mp hc with hc | hc
      · subst hc; decide
      · exact ih2.2 c hc
  | add _ _ ih1 ih2 =>
    refine ⟨by simp [ih1.1], fun c hc => ?_⟩
    rcases List.mem_append.mp hc with hc | hc
    · exact ih1.2 c hc
    · rcases List.mem_cons.mp hc with hc | hc
      · subst hc; decide
      · exact ih2.2 c hc
  | sub _ _ ih1 ih2 =>
    refine ⟨by simp [ih1.1], fun c hc => ?_⟩
    rcases List.mem_append.mp hc with hc | hc
    · exact ih1.2 c hc
    · rcases List.mem_cons.mp hc with hc | hc
      · subst hc; decide
      · exact ih2.2 c hc

/-- The alphabet of the fragment, by cases. -/
theorem simpleChar_cases {c : Char} (h : simpleChar c = true) :
    isDigitCh c = true ∨ c = '+' ∨ c = '-' ∨ c = '*' ∨ c = '/' ∨ c = '(' ∨ c = ')' := by
  unfold simpleChar at h
  simp only [Bool.or_eq_true, decide_eq_true_eq] at h
  tauto

/-- A decimal digit is none of the structural characters. -/
theorem digit_props {c : Char} (h : isDigitCh c = true) :
    ¬ c = '(' ∧ ¬ c = ')' ∧ ¬ c = '.' ∧ ¬ c = 'e' ∧ ¬ c = ' ' ∧ ¬ c = '!' ∧
    isOpCh c = false ∧ isLowerCh c = false ∧ isUpperCh c = false ∧
    isNameStartCh c = false ∧ isSpaceCh c = false := by
  have hne : ∀ d : Char, isDigitCh d = false → ¬ c = d := by
    intro d hd hq
    subst hq
    rw [h] at hd
    exact Bool.noConfusion hd
  have hrange : 48 ≤ c.toNat ∧ c.toNat ≤ 57 := by
    unfold isDigitCh at h
    simp only [Bool.and_eq_true, decide_eq_true_eq] at h
    exact h
  have hlow : isLowerCh c = false := by
    unfold isLowerCh
    simp only [Bool.and_eq_false_iff, decide_eq_false_iff_not]
    left
    omega
  have hup : isUpperCh c = false := by
    unfold isUpperCh
    simp only [Bool.and_eq_false_iff, decide_eq_false_iff_not]
    left
    omega
  refine ⟨hne '(' (by decide), hne ')' (by decide), hne '.' (by decide),
    hne 'e' (by decide), hne ' ' (by decide), hne '!' (by decide), ?_, hlow, hup, ?_, ?_⟩
  · unfold isOpCh
    simp only [Bool.or_eq_false_iff, decide_eq_false_iff_not]
    exact ⟨⟨⟨⟨⟨hne '+' (by decide), hne '-' (by decide)⟩, hne '*' (by decide)⟩,
      hne '/' (by decide)⟩, hne '^' (by decide)⟩, hne '%' (by decide)⟩
  · unfold isNameStartCh
    rw [hlow, hup]
    simp only [Bool.false_or, decide_eq_false_iff_not]
    exact hne '_' (by decide)
  · unfold isSpaceCh
    simp only [Bool.or_eq_false_iff, decide_eq_false_iff_not]
    exact ⟨⟨⟨⟨hne ' ' (by decide), hne '\t' (by decide)⟩, hne '\n' (by decide)⟩,
      hne '\x0c' (by decide)⟩, hne '\r' (by decide)⟩

/-! ## Validation passes on the arithmetic fragment (claim C7) -/

/-- Unfolding balAux on a cons cell. -/
theorem balAux_cons (n : ℤ) (c : Char) (t : Str) :
    balAux n (c :: t) =
      (if c = '(' then balAux (n + 1) t
       else if c = ')' then (if n - 1 < 0 then false else balAux (n - 1) t)
       else balAux n t) := rfl

/-- Unfolding consecAux on a cons cell. -/
theorem consecAux_cons (prev c : Char) (t : Str) :
    consecAux prev (c :: t) =
      (if isOpCh prev && isOpCh c &&
          !((decide (prev = '+') || decide (prev = '-')) &&
            (decide (c = '+') || decide (c = '-'))) then true
       else consecAux c t) := rfl

/-- balAux ignores characters that are not parentheses. -/
theorem balAux_no_paren {s : Str} (hs : ∀ c ∈ s, ¬ c = '(' ∧ ¬ c = ')') :
    ∀ (n : ℤ) (rest : Str), balAux n (s ++ rest) = balAux n rest := by
  induction s with
  | nil => intro n rest; rfl
  | cons c cs ih =>
    intro n rest
    have hc := hs c (List.mem_cons_self c cs)
    rw [List.cons_append, balAux_cons, if_neg hc.1, if_neg hc.2]
    exact ih (fun x hx => hs x (List.mem_cons_of_mem c hx)) n rest

/-- One balAux step on an opening parenthesis. -/
theorem balAux_lparen (n : ℤ) (t : Str) : balAux n ('(' :: t) = balAux (n + 1) t := by
  rw [balAux_cons, if_pos rfl]

/-- One balAux step on a closing parenthesis at positive balance. -/
theorem balAux_rparen_succ (n : ℤ) (hn : 0 ≤ n) (t : Str) :
    balAux (n + 1) (')' :: t) = balAux n t := by
  rw [balAux_cons, if_neg (by decide), if_pos rfl, if_neg (by omega),
    show n + 1 - 1 = n from by ring]

/-- Well-formed fragments leave any nonnegative running balance
unchanged. -/
theorem Forms_balAux {lv : Lv} {s : Str} {v : Q} (h : Forms lv s v) :
    ∀ (n : ℤ), 0 ≤ n → ∀ rest : Str, balAux n (s ++ rest) = balAux n rest := by
  induction h with
  | lit ds hne hds =>
    intro n hn rest
    apply balAux_no_paren
    intro c hc
    have hp := digit_props (hds c hc)
    exact ⟨hp.1, hp.2.1⟩
  | paren hsub ih =>
    intro n hn rest
    rename_i s v
    have hshape : ('(' :: s ++ [')']) ++ rest = '(' :: (s ++ (')' :: rest)) := by
      simp
    rw [hshape, balAux_lparen, ih (n + 1) (by omega) (')' :: rest),
      balAux_rparen_succ n hn rest]
  | atomTerm _ ih => exact ih
  | termExpr _ ih => exact ih
  | mul h1 h2 ih1 ih2 =>
    intro n hn rest
    rename_i s t v w
    have hshape : (s ++ '*' :: t) ++ rest = s ++ ('*' :: (t ++ rest)) := by simp
    rw [hshape, ih1 n hn ('*' :: (t ++ rest)), balAux_cons,
      if_neg (by decide), if_neg (by decide)]
    exact ih2 n hn rest
  | div h1 h2 hnz ih1 ih2 =>
    intro n hn rest
    rename_i s t v w
    have hshape : (s ++ '/' :: t) ++ rest = s ++ ('/' :: (t ++ rest)) := by simp
    rw [hshape, ih1 n hn ('/' :: (t ++ rest)), balAux_cons,
      if_neg (by decide), if_neg (by decide)]
    exact ih2 n hn rest
  | add h1 h2 ih1 ih2 =>
    intro n hn rest
    rename_i s t v w
    have hshape : (s ++ '+' :: t) ++ rest = s ++ ('+' :: (t ++ rest)) := by simp
    rw [hshape, ih1 n hn ('+' :: (t ++ rest)), balAux_cons,
      if_neg (by decide), if_neg (by decide)]
    exact ih2 n hn rest
  | sub h1 h2 ih1 ih2 =>
    intro n hn rest
    rename_i s t v w
    have hshape : (s ++ '-' :: t) ++ rest = s ++ ('-' :: (t ++ rest)) := by simp
    rw [hshape, ih1 n hn ('-' :: (t ++ rest)), balAux_cons,
      if_neg (by decide), if_neg (by decide)]
    exact ih2 n hn rest

/-- Well-formed fragments have balanced parentheses. -/
theorem Forms_balanced {s : Str} {v : Q} (h : Forms .expr s v) :
    HasBalancedParentheses s = true := by
  unfold HasBalancedParentheses
  have := Forms_balAux h 0 le_rfl []
  rw [List.append_nil] at this
  rw [this]
  rfl

/-- One consecAux step on a non-operator character. -/
theorem consecAux_step_nonop {c : Char} (hc : isOpCh c = false) (prev : Char) (t : Str) :
    consecAux prev (c :: t) = consecAux c t := by
  rw [consecAux_cons, hc]
  simp

/-- One consecAux step after a non-operator character. -/
theorem consecAux_step_nonop_prev {prev : Char} (hp : isOpCh prev = false)
    (c : Char) (t : Str) : consecAux prev (c :: t) = consecAux c t := by
  rw [consecAux_cons, hp]
  simp

/-- A nonempty digit run passes through consecAux leaving a non-operator
previous character. -/
theorem consecAux_digits {ds : Str} (hne : ds ≠ [])
    (hds : ∀ c ∈ ds, isDigitCh c = true) :
    ∃ lc, isOpCh lc = false ∧
      ∀ (prev : Char) (rest : Str), consecAux prev (ds ++ rest) = consecAux lc rest := by
  induction ds with
  | nil => exact absurd rfl hne
  | cons d ds ih =>
    have hd := digit_props (hds d (List.mem_cons_self d ds))
    rcases ds with _ | ⟨d2, ds2⟩
    · exact ⟨d, hd.2.2.2.2.2.2.1, fun prev rest =>
        consecAux_step_nonop hd.2.2.2.2.2.2.1 prev rest⟩
    · obtain ⟨lc, hlc, hrun⟩ := ih (by simp)
        (fun c hc => hds c (List.mem_cons_of_mem d hc))
      exact ⟨lc, hlc, fun prev rest => by
        rw [List.cons_append, consecAux_step_nonop hd.2.2.2.2.2.2.1]
        exact hrun d rest⟩

/-- Well-formed fragments never trip the consecutive-operator check,
and leave a non-operator as the previous character. -/
theorem Forms_consecAux {lv : Lv} {s : Str} {v : Q} (h : Forms lv s v) :
    ∃ lc, isOpCh lc = false ∧
      ∀ (prev : Char) (rest : Str), consecAux prev (s ++ rest) = consecAux lc rest := by
  induction h with
  | lit ds hne hds => exact consecAux_digits hne hds
  | paren hsub ih =>
    rename_i s v
    obtain ⟨lc, hlc, hrun⟩ := ih
    refine ⟨')', by decide, fun prev rest => ?_⟩
    have hshape : ('(' :: s ++ [')']) ++ rest = '(' :: (s ++ (')' :: rest)) := by simp
    rw [hshape, consecAux_step_nonop (by decide), hrun '(' (')' :: rest),
      consecAux_step_nonop (by decide)]
  | atomTerm _ ih => exact ih
  | termExpr _ ih => exact ih
  | mul h1 h2 ih1 ih2 =>
    rename_i s t v w
    obtain ⟨lc1, hlc1, hrun1⟩ := ih1
    obtain ⟨lc2, hlc2, hrun2⟩ := ih2
    refine ⟨lc2, hlc2, fun prev rest => ?_⟩
    have hshape : (s ++ '*' :: t) ++ rest = s ++ ('*' :: (t ++ rest)) := by simp
    rw [hshape, hrun1 prev ('*' :: (t ++ rest)),
      consecAux_step_nonop_prev hlc1, hrun2 '*' rest]
  | div h1 h2 hnz ih1 ih2 =>
    rename_i s t v w
    obtain ⟨lc1, hlc1, hrun1⟩ := ih1
    obtain ⟨lc2, hlc2, hrun2⟩ := ih2
    refine ⟨lc2, hlc2, fun prev rest => ?_⟩
    have hshape : (s ++ '/' :: t) ++ rest = s ++ ('/' :: (t ++ rest)) := by simp
    rw [hshape, hrun1 prev ('/' :: (t ++ rest)),
      consecAux_step_nonop_prev hlc1, hrun2 '/' rest]
  | add h1 h2 ih1 ih2 =>
    rename_i s t v w
    obtain ⟨lc1, hlc1, hrun1⟩ := ih1
    obtain ⟨lc2, hlc2, hrun2⟩ := ih2
    refine ⟨lc2, hlc2, fun prev rest => ?_⟩
    have hshape : (s ++ '+' :: t) ++ rest = s ++ ('+' :: (t ++ rest)) := by simp
    rw [hshape, hrun1 prev ('+' :: (t ++ rest)),
      consecAux_step_nonop_prev hlc1, hrun2 '+' rest]
  | sub h1 h2 ih1 ih2 =>
    rename_i s t v w
    obtain ⟨lc1, hlc1, hrun1⟩ := ih1
    obtain ⟨lc2, hlc2, hrun2⟩ := ih2
    refine ⟨lc2, hlc2, fun prev rest => ?_⟩
    have hshape : (s ++ '-' :: t) ++ rest = s ++ ('-' :: (t ++ rest)) := by simp
    rw [hshape, hrun1 prev ('-' :: (t ++ rest)),
      consecAux_step_nonop_prev hlc1, hrun2 '-' rest]

/-- Well-formed fragments pass the consecutive-operator check. -/
theorem Forms_no_consec {s : Str} {v : Q} (h : Forms .expr s v) :
    HasConsecutiveOperators s = false := by
  unfold HasConsecutiveOperators
  obtain ⟨lc, _, hrun⟩ := Forms_consecAux h
  have := hrun ' ' []
  rw [List.append_nil] at this
  rw [this]
  rfl

/-- Well-formed fragments use only whitelisted characters. -/
theorem Forms_charset {s : Str} {v : Q} (h : Forms .expr s v) :
    ValidExpressionRegexMatch s = true := by
  unfold ValidExpressionRegexMatch
  obtain ⟨hne, hch⟩ := Forms_facts h
  rw [Bool.and_eq_true]
  constructor
  · cases s
    · exact absurd rfl hne
    · rfl
  · rw [List.all_eq_true]
    intro c hc
    rcases simpleChar_cases (hch c hc) with hd | hc1 | hc1 | hc1 | hc1 | hc1 | hc1
    · unfold validExprChar
      rw [hd]
      simp
    all_goals subst hc1
    all_goals decide

/-- No captured function names on strings without lowercase letters. -/
theorem funcCallNamesAux_nil {s : Str} (hs : ∀ c ∈ s, isLowerCh c = false) :
    funcCallNamesAux [] s = [] := by
  induction s with
  | nil => rfl
  | cons c rest ih =>
    unfold funcCallNamesAux
    rw [hs c (List.mem_cons_self c rest)]
    rw [if_neg (by simp), if_neg (by simp)]
    exact ih (fun x hx => hs x (List.mem_cons_of_mem c hx))

/-- Opening and closing parentheses are in balance on well-formed
fragments (count version, for ValidateFunctionCalls). -/
theorem Forms_count_paren {lv : Lv} {s : Str} {v : Q} (h : Forms lv s v) :
    s.count '(' = s.count ')' := by
  induction h with
  | lit ds hne hds =>
    have h1 : ds.count '(' = 0 := by
      rw [List.count_eq_zero]
      intro hmem
      exact (digit_props (hds '(' hmem)).1 rfl
    have h2 : ds.count ')' = 0 := by
      rw [List.count_eq_zero]
      intro hmem
      exact (digit_props (hds ')' hmem)).2.1 rfl
    rw [h1, h2]
  | paren hsub ih =>
    rename_i s v
    simp [List.count_cons, List.count_append, ih]
  | atomTerm _ ih => exact ih
  | termExpr _ ih => exact ih
  | mul h1 h2 ih1 ih2 => simp [List.count_append, List.count_cons, ih1, ih2]
  | div h1 h2 hnz ih1 ih2 => simp [List.count_append, List.count_cons, ih1, ih2]
  | add h1 h2 ih1 ih2 => simp [List.count_append, List.count_cons, ih1, ih2]
  | sub h1 h2 ih1 ih2 => simp [List.count_append, List.count_cons, ih1, ih2]

/-- Fragment characters are not lowercase letters. -/
theorem simpleChar_not_lower {c : Char} (h : simpleChar c = true) :
    isLowerCh c = false := by
  rcases simpleChar_cases h with hd | h1 | h1 | h1 | h1 | h1 | h1
  · exact (digit_props hd).2.2.2.2.2.2.2.1
  all_goals subst h1
  all_goals decide

/-- Well-formed fragments pass the function-call check. -/
theorem Forms_funcCalls {s : Str} {v : Q} (h : Forms .expr s v) :
    ValidateFunctionCalls s = .ok () := by
  unfold ValidateFunctionCalls funcCallNames
  rw [funcCallNamesAux_nil
    (fun c hc => simpleChar_not_lower ((Forms_facts h).2 c hc))]
  show (if s.count '(' ≠ s.count ')' then _ else Except.ok ()) = Except.ok ()
  rw [if_neg (by rw [Forms_count_paren h]; simp)]

/-- Unfolding equation for numExponent on a nonempty string. -/
theorem numExponent_cons (c : Char) (t : Str) :
    numExponent (c :: t) = (if c = 'e' ∨ c = 'E' then
      match t with
      | s2 :: u =>
        if s2 = '+' ∨ s2 = '-' then
          let d := u.takeWhile isDigitCh
          if d = [] then ([], c :: t) else (c :: s2 :: d, u.dropWhile isDigitCh)
        else
          let d := t.takeWhile isDigitCh
          if d = [] then ([], c :: t) else (c :: d, t.dropWhile isDigitCh)
      | [] => ([], c :: t)
    else ([], c :: t)) := rfl

/-- takeWhile/dropWhile through an all-satisfying prefix up to a
failing boundary. -/
theorem take_drop_all {p : Char → Bool} : ∀ {a b : Str}, (∀ c ∈ a, p c = true) →
    (∀ c, b.head? = some c → p c = false) →
    (a ++ b).takeWhile p = a ∧ (a ++ b).dropWhile p = b := by
  intro a
  induction a with
  | nil =>
    intro b _ hb
    rcases b with _ | ⟨c, t⟩
    · exact ⟨rfl, rfl⟩
    · have hc := hb c rfl
      rw [List.nil_append, List.takeWhile_cons_of_neg (by rw [hc]; simp),
        List.dropWhile_cons_of_neg (by rw [hc]; simp)]
      exact ⟨rfl, rfl⟩
  | cons x a ih =>
    intro b ha hb
    have hx := ha x (List.mem_cons_self x a)
    have hrec := ih (fun c hc => ha c (List.mem_cons_of_mem x hc)) hb
    rw [List.cons_append, List.takeWhile_cons_of_pos hx,
      List.dropWhile_cons_of_pos hx, hrec.1, hrec.2]
    exact ⟨rfl, rfl⟩

/-- The head of a dropWhile result fails the predicate. -/
theorem dropWhile_head_false {p : Char → Bool} : ∀ {l : Str} {c : Char} {t : Str},
    l.dropWhile p = c :: t → p c = false := by
  intro l
  induction l with
  | nil => intro c t h; exact absurd h (by simp)
  | cons a l ih =>
    intro c t h
    by_cases hp : p a = true
    · rw [List.dropWhile_cons_of_pos hp] at h
      exact ih h
    · rw [List.dropWhile_cons_of_neg hp] at h
      rcases List.cons.inj h with ⟨rfl, _⟩
      exact Bool.not_eq_true _ ▸ hp

/-- Characters of a takeWhile result satisfy the predicate. -/
theorem mem_takeWhile_true {p : Char → Bool} : ∀ {l : Str} {c : Char},
    c ∈ l.takeWhile p → p c = true := by
  intro l
  induction l with
  | nil => intro c h; exact absurd h (by simp)
  | cons a l ih =>
    intro c h
    by_cases hp : p a = true
    · rw [List.takeWhile_cons_of_pos hp] at h
      rcases List.mem_cons.mp h with rfl | h
      · exact hp
      · exact ih h
    · rw [List.takeWhile_cons_of_neg hp] at h
      exact absurd h (by simp)

/-- On a dot-free, e-free string, every number match is an optional
minus followed by a nonempty digit run, and the rest stays inside the
string. -/
theorem numMatchAt_simple {s : Str}
    (hs : ∀ c ∈ s, ¬ c = '.' ∧ ¬ c = 'e' ∧ ¬ c = 'E') :
    ∀ {m r : Str}, numMatchAt s = some (m, r) →
      (∃ ds, (m = ds ∨ m = '-' :: ds) ∧ ds ≠ [] ∧ (∀ c ∈ ds, isDigitCh c = true)) ∧
      (∀ c ∈ r, c ∈ s) := by
  have core : ∀ (t : Str), (∀ c ∈ t, ¬ c = '.' ∧ ¬ c = 'e' ∧ ¬ c = 'E') →
      ∀ {mm rr : Str}, numMantissa t = some (mm, rr) →
      (mm ≠ [] ∧ (∀ c ∈ mm, isDigitCh c = true)) ∧ numExponent rr = ([], rr) ∧
      (∀ c ∈ rr, c ∈ t) := by
    intro t ht mm rr h
    unfold numMantissa at h
    rcases hdw : t.dropWhile isDigitCh with _ | ⟨c, u⟩
    · rw [hdw, numMantissaCore_nil] at h
      split at h
      · exact absurd h (by simp)
      · rename_i hne
        simp only [Option.some.injEq, Prod.mk.injEq] at h
        rcases h with ⟨rfl, rfl⟩
        refine ⟨⟨hne, fun c hc => mem_takeWhile_true hc⟩, rfl, ?_⟩
        intro c hc
        exact absurd hc (by simp)
    · have hcmem : c ∈ t :=
        (List.dropWhile_sublist _).mem (by rw [hdw]; exact List.mem_cons_self c u)
      have hcfacts := ht c hcmem
      rw [hdw, numMantissaCore_cons, if_neg hcfacts.1] at h
      split at h
      · exact absurd h (by simp)
      · rename_i hne
        simp only [Option.some.injEq, Prod.mk.injEq] at h
        rcases h with ⟨rfl, rfl⟩
        refine ⟨⟨hne, fun x hx => mem_takeWhile_true hx⟩, ?_, ?_⟩
        · rw [numExponent_cons, if_neg (by
            intro hor
            rcases hor with hq | hq
            · exact hcfacts.2.1 hq
            · exact hcfacts.2.2 hq)]
        · intro x hx
          rw [← hdw] at hx
          exact (List.dropWhile_sublist _).mem hx
  intro m r h
  unfold numMatchAt at h
  split at h
  · rename_i t
    rcases hm : numMantissa t with _ | ⟨mm, rr⟩
    · rw [hm] at h; exact absurd h (by simp)
    · rw [hm] at h
      have hsub : ∀ c ∈ t, ¬ c = '.' ∧ ¬ c = 'e' ∧ ¬ c = 'E' :=
        fun c hc => hs c (List.mem_cons_of_mem _ hc)
      obtain ⟨⟨hne, hdig⟩, hex, hrr⟩ := core t hsub hm
      dsimp only at h
      rw [hex] at h
      dsimp only at h
      simp only [List.append_nil, Option.some.injEq, Prod.mk.injEq] at h
      rcases h with ⟨rfl, rfl⟩
      refine ⟨⟨mm, Or.inr rfl, hne, hdig⟩, ?_⟩
      intro c hc
      exact List.mem_cons_of_mem _ (hrr c hc)
  · rcases hm : numMantissa s with _ | ⟨mm, rr⟩
    · rw [hm] at h; exact absurd h (by simp)
    · rw [hm] at h
      obtain ⟨⟨hne, hdig⟩, hex, hrr⟩ := core s hs hm
      dsimp only at h
      rw [hex] at h
      dsimp only at h
      simp only [List.append_nil, Option.some.injEq, Prod.mk.injEq] at h
      rcases h with ⟨rfl, rfl⟩
      exact ⟨⟨mm, Or.inl rfl, hne, hdig⟩, hrr⟩

/-- Unfolding equation for numExponent on the empty string. -/
theorem numExponent_nil : numExponent [] = ([], []) := rfl

/-- A digit is not an uppercase E. -/
theorem digit_not_E {c : Char} (h : isDigitCh c = true) : ¬ c = 'E' := by
  intro hq
  subst hq
  exact absurd h (by decide)

/-- A digit is not a minus sign. -/
theorem digit_not_minus {c : Char} (h : isDigitCh c = true) : ¬ c = '-' := by
  intro hq
  subst hq
  exact absurd h (by decide)

/-- The number scanner on a pure nonempty digit run consumes the whole
run. -/
theorem numMatchAt_digit_run {ds : Str} (hne : ds ≠ [])
    (hds : ∀ c ∈ ds, isDigitCh c = true) : numMatchAt ds = some (ds, []) := by
  have hmant : numMantissa ds = some (ds, []) := by
    unfold numMantissa
    have htd := @take_drop_all isDigitCh ds [] hds
      (fun c hc => absurd hc (by simp))
    rw [List.append_nil] at htd
    rw [htd.1, htd.2, numMantissaCore_nil, if_neg hne]
  rcases ds with _ | ⟨d, ds2⟩
  · exact absurd rfl hne
  · have hd : isDigitCh d = true := hds d (List.mem_cons_self d ds2)
    unfold numMatchAt
    split
    · rename_i t heq
      rcases List.cons.inj heq with ⟨hdm, _⟩
      exact absurd hdm (digit_not_minus hd)
    · rw [hmant]
      dsimp only
      rw [numExponent_nil]
      dsimp only
      rw [List.append_nil]

/-- The number scanner on a minus sign followed by a pure nonempty digit
run consumes everything. -/
theorem numMatchAt_neg_digit_run {ds : Str} (hne : ds ≠ [])
    (hds : ∀ c ∈ ds, isDigitCh c = true) :
    numMatchAt ('-' :: ds) = some ('-' :: ds, []) := by
  have hmant : numMantissa ds = some (ds, []) := by
    unfold numMantissa
    have htd := @take_drop_all isDigitCh ds [] hds
      (fun c hc => absurd hc (by simp))
    rw [List.append_nil] at htd
    rw [htd.1, htd.2, numMantissaCore_nil, if_neg hne]
  have hstep : numMatchAt ('-' :: ds) =
      (match numMantissa ds with
       | some (m, r) =>
         match numExponent r with
         | (ex, r2) => some ('-' :: (m ++ ex), r2)
       | none => none) := rfl
  rw [hstep, hmant]
  dsimp only
  rw [numExponent_nil]
  dsimp only
  rw [List.append_nil]

/-- any is false when the predicate fails on every element. -/
theorem any_false_of_all {p : Char → Bool} : ∀ {l : Str},
    (∀ c ∈ l, p c = false) → l.any p = false := by
  intro l
  induction l with
  | nil => intro _; rfl
  | cons a t ih =>
    intro h
    rw [List.any_cons, h a (List.mem_cons_self a t),
      ih (fun c hc => h c (List.mem_cons_of_mem a hc))]
    rfl

/-- checkNumber accepts an optional minus followed by a nonempty digit
run. -/
theorem checkNumber_digit_shape {m ds : Str} (hm : m = ds ∨ m = '-' :: ds)
    (hne : ds ≠ []) (hds : ∀ c ∈ ds, isDigitCh c = true) :
    checkNumber m = .ok () := by
  have hchars : ∀ c ∈ m, isDigitCh c = true ∨ c = '-' := by
    rcases hm with rfl | rfl
    · exact fun c hc => Or.inl (hds c hc)
    · intro c hc
      rcases List.mem_cons.mp hc with rfl | hc
      · exact Or.inr rfl
      · exact Or.inl (hds c hc)
  have hvm : ValidNumberRegexMatch m = true := by
    unfold ValidNumberRegexMatch
    rcases hm with rfl | rfl
    · rw [numMatchAt_digit_run hne hds]; rfl
    · rw [numMatchAt_neg_digit_run hne hds]; rfl
  have hdotc : m.count '.' = 0 := by
    rw [List.count_eq_zero]
    intro hmem
    rcases hchars '.' hmem with hd | hq
    · exact absurd hd (by decide)
    · exact absurd hq (by decide)
  have hany : m.any (fun c => c = 'e' ∨ c = 'E') = false := by
    refine any_false_of_all ?_
    intro c hc
    rcases hchars c hc with hd | rfl
    · have h1 : ¬ c = 'e' := (digit_props hd).2.2.2.1
      have h2 : ¬ c = 'E' := digit_not_E hd
      simp [h1, h2]
    · decide
  unfold checkNumber
  rw [if_neg (by rw [hvm]; exact not_not_intro rfl)]
  rw [if_neg (by rw [hdotc]; omega)]
  rw [if_neg (by rw [hany]; exact Bool.false_ne_true)]

/-- On a dot-free, e-free string every extracted number passes
checkNumber. -/
theorem numberMatchesAux_simple : ∀ (f : Nat) (s : Str),
    (∀ c ∈ s, ¬ c = '.' ∧ ¬ c = 'e' ∧ ¬ c = 'E') →
    ∀ m ∈ numberMatchesAux f s, checkNumber m = .ok () := by
  intro f
  induction f with
  | zero =>
    intro s _ m hm
    exact absurd hm (by simp [numberMatchesAux])
  | succ f ih =>
    intro s hs m hm
    rcases s with _ | ⟨c, rest⟩
    · exact absurd hm (by simp [numberMatchesAux])
    · rw [show numberMatchesAux (f + 1) (c :: rest) =
          (match numMatchAt (c :: rest) with
           | some (m, r) => m :: numberMatchesAux f r
           | none => numberMatchesAux f rest) from rfl] at hm
      rcases hq : numMatchAt (c :: rest) with _ | ⟨m0, r⟩
      · rw [hq] at hm
        exact ih rest (fun x hx => hs x (List.mem_cons_of_mem _ hx)) m hm
      · rw [hq] at hm
        dsimp only at hm
        obtain ⟨⟨ds, hshape, hnds, hds⟩, hrsub⟩ := numMatchAt_simple hs hq
        rcases List.mem_cons.mp hm with rfl | hm
        · exact checkNumber_digit_shape hshape hnds hds
        · exact ih r (fun x hx => hs x (hrsub x hx)) m hm

/-- firstError succeeds when every individual check does. -/
theorem firstError_ok : ∀ {l : List Str},
    (∀ m ∈ l, checkNumber m = .ok ()) → firstError l = .ok () := by
  intro l
  induction l with
  | nil => intro _; rfl
  | cons m rest ih =>
    intro h
    rw [show firstError (m :: rest) =
        (match checkNumber m with
         | .ok () => firstError rest
         | .error e => .error e) from rfl,
      h m (List.mem_cons_self m rest)]
    exact ih (fun x hx => h x (List.mem_cons_of_mem m hx))

/-- ValidateNumbers succeeds on any dot-free, e-free string. -/
theorem ValidateNumbers_simple {s : Str}
    (hs : ∀ c ∈ s, ¬ c = '.' ∧ ¬ c = 'e' ∧ ¬ c = 'E') :
    ValidateNumbers s = .ok () := by
  unfold ValidateNumbers numberMatches
  exact firstError_ok (numberMatchesAux_simple (s.length + 1) s hs)

/-- A fragment character is neither a dot nor an exponent letter. -/
theorem simpleChar_no_dot_e {c : Char} (h : simpleChar c = true) :
    ¬ c = '.' ∧ ¬ c = 'e' ∧ ¬ c = 'E' := by
  rcases simpleChar_cases h with hd | h1 | h1 | h1 | h1 | h1 | h1
  · exact ⟨(digit_props hd).2.2.1, (digit_props hd).2.2.2.1, digit_not_E hd⟩
  all_goals subst h1
  all_goals exact ⟨by decide, by decide, by decide⟩

/-- Well-formed fragments satisfying the division-by-zero heuristic pass
the whole of ValidateExpression. -/
theorem Forms_validate {s : Str} {v : Q} (h : Forms .expr s v)
    (hdiv : ¬ (containsSub (strL "/0") s = true ∧
      ¬ containsSub (strL "/0.") s = true)) :
    ValidateExpression s = .ok () := by
  obtain ⟨hne, hch⟩ := Forms_facts h
  unfold ValidateExpression
  rw [if_neg hne]
  rw [if_neg (not_not_intro (Forms_balanced h))]
  rw [if_neg (by rw [Forms_no_consec h]; exact Bool.false_ne_true)]
  rw [if_neg (not_not_intro (Forms_charset h))]
  rw [if_neg hdiv]
  rw [Forms_funcCalls h]
  exact ValidateNumbers_simple (fun c hc => simpleChar_no_dot_e (hch c hc))

/-- A single-character search never fires on a string avoiding that
character. -/
theorem containsSub_single_false {c : Char} : ∀ {s : Str},
    (∀ x ∈ s, ¬ x = c) → containsSub [c] s = false := by
  intro s
  induction s with
  | nil => intro _; rfl
  | cons a rest ih =>
    intro h
    unfold containsSub
    rw [show headMatches [c] (a :: rest) = (decide (c = a) && headMatches [] rest) from rfl]
    have hca : decide (c = a) = false := by
      simp only [decide_eq_false_iff_not]
      intro hq
      exact h a (List.mem_cons_self a rest) hq.symm
    rw [hca, ih (fun x hx => h x (List.mem_cons_of_mem a hx))]
    rfl

/-- A digit is not a plus sign. -/
theorem digit_not_plus {c : Char} (h : isDigitCh c = true) : ¬ c = '+' := by
  intro hq
  subst hq
  exact absurd h (by decide)

/-- ParseFloat evaluates a nonempty digit run to its decimal value. -/
theorem parseFloat_digits {ds : Str} (hne : ds ≠ [])
    (hds : ∀ c ∈ ds, isDigitCh c = true) :
    parseFloatQ ds = some ((natVal ds : Q)) := by
  obtain ⟨d, t, rfl⟩ : ∃ d t, ds = d :: t := by
    rcases ds with _ | ⟨d, t⟩
    · exact absurd rfl hne
    · exact ⟨d, t, rfl⟩
  have hd := hds d (List.mem_cons_self d t)
  have htd := @take_drop_all isDigitCh (d :: t) [] hds
    (fun c hc => absurd hc (by simp))
  rw [List.append_nil] at htd
  unfold parseFloatQ
  dsimp only
  rw [if_neg (digit_not_minus hd), if_neg (digit_not_plus hd)]
  dsimp only
  rw [htd.1, htd.2]
  dsimp only
  rw [if_neg (by simp)]
  have h0 : ((natVal ([] : Str) : Nat) : Q) = 0 := rfl
  rw [h0]
  norm_num

/-- The separator characters of the arithmetic fragment: operators and
parentheses, i.e. every fragment character that is not a digit. -/
def sepChar (c : Char) : Bool :=
  decide (c = '+') || decide (c = '-') || decide (c = '*') ||
  decide (c = '/') || decide (c = '(') || decide (c = ')')

/-- An admissible continuation for the tokenizer-splice lemma: empty, or
starting with a separator character. -/
def restOk (rest : Str) : Prop :=
  rest = [] ∨ ∃ c rest2, rest = c :: rest2 ∧ sepChar c = true

/-- Token-level counterpart of Forms: the same grammar over token lists
instead of character strings. -/
inductive FormsT : Lv → List Str → Q → Prop
  | lit (ds : Str) (hne : ds ≠ []) (hds : ∀ c ∈ ds, isDigitCh c = true) :
      FormsT .atom [ds] ((natVal ds : Q))
  | paren {ts : List Str} {v : Q} : FormsT .expr ts v →
      FormsT .atom ([['(']] ++ ts ++ [[')']]) v
  | atomTerm {ts : List Str} {v : Q} : FormsT .atom ts v → FormsT .term ts v
  | mul {ts us : List Str} {v w : Q} : FormsT .term ts v → FormsT .atom us w →
      FormsT .term (ts ++ [['*']] ++ us) (v * w)
  | div {ts us : List Str} {v w : Q} : FormsT .term ts v → FormsT .atom us w →
      w ≠ 0 → FormsT .term (ts ++ [['/']] ++ us) (v / w)
  | termExpr {ts : List Str} {v : Q} : FormsT .term ts v → FormsT .expr ts v
  | add {ts us : List Str} {v w : Q} : FormsT .expr ts v → FormsT .term us w →
      FormsT .expr (ts ++ [['+']] ++ us) (v + w)
  | sub {ts us : List Str} {v w : Q} : FormsT .expr ts v → FormsT .term us w →
      FormsT .expr (ts ++ [['-']] ++ us) (v - w)

/-- Unfolding equation for the tokenizer on the empty string. -/
theorem tokenizeAux_nil (prev : Option Char) (cur : Str) :
    tokenizeAux prev cur [] = if cur.isEmpty then [] else [cur] := rfl

/-- Unfolding equation for one tokenizer step. -/
theorem tokenizeAux_cons (prev : Option Char) (cur : Str) (c : Char) (rest : Str) :
    tokenizeAux prev cur (c :: rest) =
      (if isDigitCh c || decide (c = '.') || (decide (c = 'e') && prevIsDigit prev) then
        tokenizeAux (some c) (cur ++ [c]) rest
      else
        (if cur.isEmpty then [] else [cur]) ++ (if c = ' ' then [] else [[c]]) ++
        tokenizeAux (some c) [] rest) := rfl

/-- Separator characters are not digits, dots, exponent letters or
spaces. -/
theorem sepChar_facts {c : Char} (h : sepChar c = true) :
    isDigitCh c = false ∧ ¬ c = '.' ∧ ¬ c = 'e' ∧ ¬ c = ' ' := by
  unfold sepChar at h
  simp only [Bool.or_eq_true, decide_eq_true_eq] at h
  rcases h with ((((h | h) | h) | h) | h) | h
  all_goals subst h
  all_goals exact ⟨by decide, by decide, by decide, by decide⟩

/-- The number-extension guard of the tokenizer is false on a separator
character, whatever the previous character was. -/
theorem guard_false_of_sep {c : Char} (h : sepChar c = true) (p : Option Char) :
    (isDigitCh c || decide (c = '.') || (decide (c = 'e') && prevIsDigit p)) = false := by
  obtain ⟨h1, h2, h3, _⟩ := sepChar_facts h
  rw [h1]
  simp [h2, h3]

/-- Starting with an empty current token, the incoming previous
character influences the tokenizer only through the exponent rule, so it
is irrelevant unless the string starts with an e. -/
theorem tokenizeAux_prev_irrel (p1 p2 : Option Char) : ∀ (rest : Str),
    (∀ c, rest.head? = some c → ¬ c = 'e') →
    tokenizeAux p1 [] rest = tokenizeAux p2 [] rest := by
  intro rest h
  rcases rest with _ | ⟨c, rest2⟩
  · rfl
  · have hc : decide (c = 'e') = false := by
      simp only [decide_eq_false_iff_not]
      exact h c rfl
    rw [tokenizeAux_cons, tokenizeAux_cons, hc]
    simp only [Bool.false_and, Bool.or_false]

/-- The tokenizer carries a digit run into the current token. -/
theorem tokenizeAux_digits : ∀ (ds : Str), ds ≠ [] →
    (∀ c ∈ ds, isDigitCh c = true) →
    ∀ (prev : Option Char) (cur rest : Str),
      ∃ d, isDigitCh d = true ∧
        tokenizeAux prev cur (ds ++ rest) = tokenizeAux (some d) (cur ++ ds) rest := by
  intro ds
  induction ds with
  | nil => intro hne; exact absurd rfl hne
  | cons d ds ih =>
    intro _ hds prev cur rest
    have hd := hds d (List.mem_cons_self d ds)
    rw [List.cons_append, tokenizeAux_cons, if_pos (by rw [hd]; rfl)]
    rcases ds with _ | ⟨d2, ds2⟩
    · exact ⟨d, hd, by rw [List.nil_append]⟩
    · obtain ⟨d4, hd4, heq⟩ := ih (by simp)
        (fun c hc => hds c (List.mem_cons_of_mem d hc)) (some d) (cur ++ [d]) rest
      refine ⟨d4, hd4, ?_⟩
      rw [heq, List.append_assoc]
      rfl

/-- An admissible continuation never starts with an exponent letter. -/
theorem restOk_no_e {rest : Str} (h : restOk rest) :
    ∀ c, rest.head? = some c → ¬ c = 'e' := by
  intro c hc
  rcases h with rfl | ⟨c2, r2, rfl, hsep⟩
  · exact absurd hc (by simp)
  · simp only [List.head?_cons, Option.some.injEq] at hc
    subst hc
    exact (sepChar_facts hsep).2.2.1

/-- Tokenization of a well-formed fragment: spliced in front of an
admissible continuation, the fragment contributes exactly its token list
(which forms the same value at the token level). -/
theorem Forms_tok {lv : Lv} {s : Str} {v : Q} (h : Forms lv s v) :
    ∃ ts, FormsT lv ts v ∧
      ∀ (prev : Option Char) (rest : Str), restOk rest →
        tokenizeAux prev [] (s ++ rest) = ts ++ tokenizeAux none [] rest := by
  induction h with
  | lit ds hne hds =>
    refine ⟨[ds], FormsT.lit ds hne hds, ?_⟩
    intro prev rest hrest
    have hne2 : ds.isEmpty = false := by
      rcases ds with _ | _
      · exact absurd rfl hne
      · rfl
    obtain ⟨dd, hdd, heq⟩ := tokenizeAux_digits ds hne hds prev [] rest
    rw [List.nil_append] at heq
    rw [heq]
    rcases hrest with rfl | ⟨c, rest2, rfl, hsep⟩
    · rw [tokenizeAux_nil, tokenizeAux_nil,
        if_neg (by rw [hne2]; exact Bool.false_ne_true)]
      rfl
    · rw [tokenizeAux_cons, tokenizeAux_cons,
        guard_false_of_sep hsep (some dd), guard_false_of_sep hsep none]
      simp [hne2, (sepChar_facts hsep).2.2.2]
  | paren hinner ih =>
    obtain ⟨ts, hts, hIH⟩ := ih
    refine ⟨[['(']] ++ ts ++ [[')']], FormsT.paren hts, ?_⟩
    intro prev rest hrest
    rename_i sI vI
    have hassoc : (('(' :: sI ++ [')']) ++ rest) = '(' :: (sI ++ (')' :: rest)) := by
      simp
    rw [hassoc, tokenizeAux_cons,
      guard_false_of_sep (show sepChar '(' = true by decide) prev,
      if_neg Bool.false_ne_true,
      hIH (some '(') (')' :: rest) (Or.inr ⟨')', rest, rfl, by decide⟩),
      tokenizeAux_cons,
      guard_false_of_sep (show sepChar ')' = true by decide) none,
      if_neg Bool.false_ne_true,
      tokenizeAux_prev_irrel (some ')') none rest (restOk_no_e hrest)]
    simp
  | atomTerm _ ih =>
    obtain ⟨ts, hts, hIH⟩ := ih
    exact ⟨ts, FormsT.atomTerm hts, hIH⟩
  | termExpr _ ih =>
    obtain ⟨ts, hts, hIH⟩ := ih
    exact ⟨ts, FormsT.termExpr hts, hIH⟩
  | mul h1 h2 ih1 ih2 =>
    obtain ⟨ts, hts, hIH1⟩ := ih1
    obtain ⟨us, hus, hIH2⟩ := ih2
    refine ⟨ts ++ [['*']] ++ us, FormsT.mul hts hus, ?_⟩
    intro prev rest hrest
    rename_i sA sB vA vB
    have hassoc : (sA ++ '*' :: sB) ++ rest = sA ++ ('*' :: (sB ++ rest)) := by simp
    rw [hassoc,
      hIH1 prev ('*' :: (sB ++ rest)) (Or.inr ⟨'*', sB ++ rest, rfl, by decide⟩),
      tokenizeAux_cons,
      guard_false_of_sep (show sepChar '*' = true by decide) none,
      if_neg Bool.false_ne_true,
      hIH2 (some '*') rest hrest]
    simp
  | div h1 h2 hw ih1 ih2 =>
    obtain ⟨ts, hts, hIH1⟩ := ih1
    obtain ⟨us, hus, hIH2⟩ := ih2
    refine ⟨ts ++ [['/']] ++ us, FormsT.div hts hus hw, ?_⟩
    intro prev rest hrest
    rename_i sA sB vA vB
    have hassoc : (sA ++ '/' :: sB) ++ rest = sA ++ ('/' :: (sB ++ rest)) := by simp
    rw [hassoc,
      hIH1 prev ('/' :: (sB ++ rest)) (Or.inr ⟨'/', sB ++ rest, rfl, by decide⟩),
      tokenizeAux_cons,
      guard_false_of_sep (show sepChar '/' = true by decide) none,
      if_neg Bool.false_ne_true,
      hIH2 (some '/') rest hrest]
    simp
  | add h1 h2 ih1 ih2 =>
    obtain ⟨ts, hts, hIH1⟩ := ih1
    obtain ⟨us, hus, hIH2⟩ := ih2
    refine ⟨ts ++ [['+']] ++ us, FormsT.add hts hus, ?_⟩
    intro prev rest hrest
    rename_i sA sB vA vB
    have hassoc : (sA ++ '+' :: sB) ++ rest = sA ++ ('+' :: (sB ++ rest)) := by simp
    rw [hassoc,
      hIH1 prev ('+' :: (sB ++ rest)) (Or.inr ⟨'+', sB ++ rest, rfl, by decide⟩),
      tokenizeAux_cons,
      guard_false_of_sep (show sepChar '+' = true by decide) none,
      if_neg Bool.false_ne_true,
      hIH2 (some '+') rest hrest]
    simp
  | sub h1 h2 ih1 ih2 =>
    obtain ⟨ts, hts, hIH1⟩ := ih1
    obtain ⟨us, hus, hIH2⟩ := ih2
    refine ⟨ts ++ [['-']] ++ us, FormsT.sub hts hus, ?_⟩
    intro prev rest hrest
    rename_i sA sB vA vB
    have hassoc : (sA ++ '-' :: sB) ++ rest = sA ++ ('-' :: (sB ++ rest)) := by simp
    rw [hassoc,
      hIH1 prev ('-' :: (sB ++ rest)) (Or.inr ⟨'-', sB ++ rest, rfl, by decide⟩),
      tokenizeAux_cons,
      guard_false_of_sep (show sepChar '-' = true by decide) none,
      if_neg Bool.false_ne_true,
      hIH2 (some '-') rest hrest]
    simp

/-- Tokenization of a whole well-formed fragment string. -/
theorem Forms_tokenizeF {s : Str} {v : Q} (h : Forms .expr s v) :
    ∃ ts, FormsT .expr ts v ∧ tokenizeF s = ts := by
  obtain ⟨ts, hts, hIH⟩ := Forms_tok h
  refine ⟨ts, hts, ?_⟩
  have hx := hIH none [] (Or.inl rfl)
  rw [List.append_nil] at hx
  unfold tokenizeF
  rw [hx, tokenizeAux_nil]
  simp

/-- Unfolding equation for one step of the unary-operator pass. -/
theorem puAux_cons (p : Option Str) (t : Str) (rest : List Str) :
    puAux p (t :: rest) =
      (if t = ['-'] ∧ unaryPred p = true then [['~']]
       else if t = ['+'] ∧ unaryPred p = true then []
       else [t]) ++ puAux (some t) rest := rfl

/-- Unfolding equation for unaryPred on a present predecessor. -/
theorem unaryPred_some (tl : Str) :
    unaryPred (some tl) =
      (!isNumberTok tl && !decide (tl = [')']) && !decide (tl = ['~'])) := rfl

/-- After a number or a closing parenthesis, a sign is binary. -/
theorem unaryPred_false {tl : Str} (h : isNumberTok tl = true ∨ tl = [')']) :
    unaryPred (some tl) = false := by
  rcases h with h | rfl
  · rw [unaryPred_some, h]
    rfl
  · decide

/-- A nonempty digit run is a number token. -/
theorem isNumberTok_digits {ds : Str} (hne : ds ≠ [])
    (hds : ∀ c ∈ ds, isDigitCh c = true) : isNumberTok ds = true := by
  unfold isNumberTok
  rw [parseFloat_digits hne hds]
  rfl

/-- The unary-operator pass leaves the token list of a well-formed
fragment unchanged, spliced in front of any continuation; the fragment
always ends in a number or a closing parenthesis. -/
theorem FormsT_pu {lv : Lv} {ts : List Str} {v : Q} (h : FormsT lv ts v) :
    ∃ tl, (isNumberTok tl = true ∨ tl = [')']) ∧
      ∀ (p : Option Str) (rest : List Str),
        puAux p (ts ++ rest) = ts ++ puAux (some tl) rest := by
  induction h with
  | lit ds hne hds =>
    have hq1 : ¬ ds = ['-'] := by
      intro hq
      rw [hq] at hds
      exact absurd (hds '-' (by simp)) (by decide)
    have hq2 : ¬ ds = ['+'] := by
      intro hq
      rw [hq] at hds
      exact absurd (hds '+' (by simp)) (by decide)
    refine ⟨ds, Or.inl (isNumberTok_digits hne hds), ?_⟩
    intro p rest
    rw [List.cons_append, puAux_cons,
      if_neg (fun hc => hq1 hc.1), if_neg (fun hc => hq2 hc.1)]
    rfl
  | paren hin ih =>
    rename_i tsI vI
    obtain ⟨tl, htl, hIH⟩ := ih
    refine ⟨[')'], Or.inr rfl, ?_⟩
    intro p rest
    have hassoc : ([['(']] ++ tsI ++ [[')']]) ++ rest =
        ['('] :: (tsI ++ ([')'] :: rest)) := by simp
    rw [hassoc, puAux_cons,
      if_neg (fun hc => absurd hc.1 (by decide)),
      if_neg (fun hc => absurd hc.1 (by decide)),
      hIH (some ['(']) ([')'] :: rest), puAux_cons,
      if_neg (fun hc => absurd hc.1 (by decide)),
      if_neg (fun hc => absurd hc.1 (by decide))]
    simp
  | atomTerm _ ih => exact ih
  | termExpr _ ih => exact ih
  | mul hA hB ih1 ih2 =>
    rename_i tsA usA vA wA
    obtain ⟨tl1, htl1, hIH1⟩ := ih1
    obtain ⟨tl2, htl2, hIH2⟩ := ih2
    refine ⟨tl2, htl2, ?_⟩
    intro p rest
    have hassoc : (tsA ++ [['*']] ++ usA) ++ rest = tsA ++ (['*'] :: (usA ++ rest)) := by
      simp
    rw [hassoc, hIH1 p (['*'] :: (usA ++ rest)), puAux_cons,
      if_neg (fun hc => absurd hc.1 (by decide)),
      if_neg (fun hc => absurd hc.1 (by decide)),
      hIH2 (some ['*']) rest]
    simp
  | div hA hB hw ih1 ih2 =>
    rename_i tsA usA vA wA
    obtain ⟨tl1, htl1, hIH1⟩ := ih1
    obtain ⟨tl2, htl2, hIH2⟩ := ih2
    refine ⟨tl2, htl2, ?_⟩
    intro p rest
    have hassoc : (tsA ++ [['/']] ++ usA) ++ rest = tsA ++ (['/'] :: (usA ++ rest)) := by
      simp
    rw [hassoc, hIH1 p (['/'] :: (usA ++ rest)), puAux_cons,
      if_neg (fun hc => absurd hc.1 (by decide)),
      if_neg (fun hc => absurd hc.1 (by decide)),
      hIH2 (some ['/']) rest]
    simp
  | add hA hB ih1 ih2 =>
    rename_i tsA usA vA wA
    obtain ⟨tl1, htl1, hIH1⟩ := ih1
    obtain ⟨tl2, htl2, hIH2⟩ := ih2
    refine ⟨tl2, htl2, ?_⟩
    intro p rest
    have hassoc : (tsA ++ [['+']] ++ usA) ++ rest = tsA ++ (['+'] :: (usA ++ rest)) := by
      simp
    rw [hassoc, hIH1 p (['+'] :: (usA ++ rest)), puAux_cons,
      if_neg (fun hc => absurd hc.1 (by decide)),
      if_neg (fun hc => by
        rw [unaryPred_false htl1] at hc
        exact absurd hc.2 Bool.false_ne_true),
      hIH2 (some ['+']) rest]
    simp
  | sub hA hB ih1 ih2 =>
    rename_i tsA usA vA wA
    obtain ⟨tl1, htl1, hIH1⟩ := ih1
    obtain ⟨tl2, htl2, hIH2⟩ := ih2
    refine ⟨tl2, htl2, ?_⟩
    intro p rest
    have hassoc : (tsA ++ [['-']] ++ usA) ++ rest = tsA ++ (['-'] :: (usA ++ rest)) := by
      simp
    rw [hassoc, hIH1 p (['-'] :: (usA ++ rest)), puAux_cons,
      if_neg (fun hc => by
        rw [unaryPred_false htl1] at hc
        exact absurd hc.2 Bool.false_ne_true),
      if_neg (fun hc => absurd hc.1 (by decide)),
      hIH2 (some ['-']) rest]
    simp

/-- The unary-operator pass is the identity on the token list of a
well-formed fragment. -/
theorem FormsT_processUnary {ts : List Str} {v : Q} (h : FormsT .expr ts v) :
    processUnaryOperators ts = ts := by
  obtain ⟨tl, _, hIH⟩ := FormsT_pu h
  unfold processUnaryOperators
  have hx := hIH none []
  rw [List.append_nil] at hx
  rw [hx]
  simp [puAux]

/-- A segment of postfix output is good for value v when running it on
any stack pushes exactly v. -/
def RpnGood (r : List Str) (v : Q) : Prop :=
  ∀ (rest : List Str) (stk : List Q),
    evalRPNLoop (r ++ rest) stk = evalRPNLoop rest (v :: stk)

/-- The top of the operator stack blocks pops at precedence level k:
either there is no top, or it is an opening parenthesis, or it binds
more loosely than k. -/
def headOK (k : Nat) : List Str → Prop
  | [] => True
  | t :: _ => t = ['('] ∨ precedenceOf t < k

/-- Unfolding equation for the empty shunting-yard loop. -/
theorem syLoop_nil (out stack : List Str) :
    syLoop [] out stack = .ok (out, stack) := rfl

/-- Unfolding equation for one shunting-yard step. -/
theorem syLoop_cons (t : Str) (rest out stack : List Str) :
    syLoop (t :: rest) out stack =
      (if isNumberTok t then syLoop rest (out ++ [t]) stack
       else if t = ['('] then syLoop rest out (t :: stack)
       else if t = [')'] then
         match popUntilLParen out stack with
         | .error e => .error e
         | .ok (out2, st2) => syLoop rest out2 st2
       else if isOperatorTok t then
         let (out2, st2) := popGePrec (precedenceOf t) out stack
         syLoop rest out2 (t :: st2)
       else .error ("invalid token: " ++ ⟨t⟩)) := rfl

/-- Unfolding equation for one RPN-machine step. -/
theorem evalRPNLoop_cons (t : Str) (rest : List Str) (stack : List Q) :
    evalRPNLoop (t :: rest) stack =
      (if isNumberTok t then
        match parseFloatQ t with
        | some v => evalRPNLoop rest (v :: stack)
        | none => .error ("invalid number: " ++ ⟨t⟩)
      else if t = ['~'] then
        match stack with
        | [] => .error "insufficient operands for unary minus"
        | v :: below => evalRPNLoop rest (-v :: below)
      else if isOperatorTok t then
        match stack with
        | b :: a :: below =>
          (match applyBinOp t a b with
           | .error e => .error e
           | .ok r => evalRPNLoop rest (r :: below))
        | _ => .error ("insufficient operands for operator " ++ ⟨t⟩)
      else .error ("unknown token in RPN: " ++ ⟨t⟩)) := rfl

/-- popGePrec pops exactly the pending block above a blocking top. -/
theorem popGePrec_pend {p : Nat} : ∀ {pend : List Str},
    (∀ op ∈ pend, ¬ op = ['('] ∧ p ≤ precedenceOf op) →
    ∀ {stack : List Str}, headOK p stack → ∀ (out : List Str),
      popGePrec p out (pend ++ stack) = (out ++ pend, stack) := by
  intro pend
  induction pend with
  | nil =>
    intro _ stack hstack out
    rw [List.nil_append]
    rcases stack with _ | ⟨top, s2⟩
    · show ((out, []) : List Str × List Str) = (out ++ [], [])
      rw [List.append_nil]
    · show (if ¬ top = ['('] ∧ p ≤ precedenceOf top then
          popGePrec p (out ++ [top]) s2 else (out, top :: s2)) = (out ++ [], top :: s2)
      rw [if_neg (by
        intro hc
        rcases hstack with h | h
        · exact hc.1 h
        · exact absurd hc.2 (by omega))]
      rw [List.append_nil]
  | cons op pend ih =>
    intro hpend stack hstack out
    have hop := hpend op (List.mem_cons_self op pend)
    rw [List.cons_append]
    show (if ¬ op = ['('] ∧ p ≤ precedenceOf op then
        popGePrec p (out ++ [op]) (pend ++ stack)
      else (out, op :: (pend ++ stack))) = (out ++ op :: pend, stack)
    rw [if_pos ⟨hop.1, hop.2⟩,
      ih (fun x hx => hpend x (List.mem_cons_of_mem op hx)) hstack (out ++ [op])]
    simp

/-- popUntilLParen flushes the pending block to the output and discards
the matching opening parenthesis. -/
theorem popUntil_pend : ∀ {pend : List Str}, (∀ op ∈ pend, ¬ op = ['(']) →
    ∀ (out stack : List Str),
      popUntilLParen out (pend ++ (['('] :: stack)) = .ok (out ++ pend, stack) := by
  intro pend
  induction pend with
  | nil =>
    intro _ out stack
    rw [List.nil_append]
    show (if (['('] : Str) = ['('] then
        (Except.ok (out, stack) : Except String (List Str × List Str))
      else popUntilLParen (out ++ [['(']]) stack) = .ok (out ++ [], stack)
    rw [if_pos rfl, List.append_nil]
  | cons op pend ih =>
    intro hpend out stack
    rw [List.cons_append]
    show (if op = ['('] then
        (Except.ok (out, pend ++ (['('] :: stack)) : Except String (List Str × List Str))
      else popUntilLParen (out ++ [op]) (pend ++ (['('] :: stack))) =
        .ok (out ++ op :: pend, stack)
    rw [if_neg (hpend op (List.mem_cons_self op pend)),
      ih (fun x hx => hpend x (List.mem_cons_of_mem op hx)) (out ++ [op]) stack]
    simp

/-- syFlush drains a parenthesis-free stack to the output in order. -/
theorem syFlush_pend : ∀ {pend : List Str}, (∀ op ∈ pend, ¬ op = ['(']) →
    ∀ (out : List Str), syFlush out pend = .ok (out ++ pend) := by
  intro pend
  induction pend with
  | nil =>
    intro _ out
    rw [List.append_nil]
    rfl
  | cons op pend ih =>
    intro hpend out
    show (if op = ['('] then (Except.error "mismatched parentheses" : Except String (List Str))
      else syFlush (out ++ [op]) pend) = .ok (out ++ op :: pend)
    rw [if_neg (hpend op (List.mem_cons_self op pend)),
      ih (fun x hx => hpend x (List.mem_cons_of_mem op hx)) (out ++ [op])]
    simp

/-- A nonempty digit run is a good postfix segment for its value. -/
theorem RpnGood_num {ds : Str} (hne : ds ≠ [])
    (hds : ∀ c ∈ ds, isDigitCh c = true) : RpnGood [ds] ((natVal ds : Q)) := by
  intro rest stk
  show evalRPNLoop (ds :: rest) stk = _
  rw [evalRPNLoop_cons, if_pos (isNumberTok_digits hne hds),
    parseFloat_digits hne hds]

/-- Concatenating two good segments and a binary operator token yields a
good segment for the operator's result. -/
theorem RpnGood_binoptok {r1 r2 : List Str} {v w u : Q} {op : Str}
    (h1 : RpnGood r1 v) (h2 : RpnGood r2 w)
    (hnum : isNumberTok op = false) (hnm : ¬ op = ['~'])
    (hop : isOperatorTok op = true) (happ : applyBinOp op v w = .ok u) :
    RpnGood (r1 ++ r2 ++ [op]) u := by
  intro rest stk
  rw [List.append_assoc, List.append_assoc, h1 _ stk, h2 _ (v :: stk)]
  show evalRPNLoop (op :: rest) (w :: v :: stk) = _
  rw [evalRPNLoop_cons,
    if_neg (by rw [hnum]; exact Bool.false_ne_true),
    if_neg hnm, if_pos hop]
  dsimp only
  rw [happ]

/-- The shunting-yard contract of a segment at each grammar level: an
atom is stack-neutral and contributes a good postfix segment; a term or
expression chain additionally leaves a block of pending operators (of
precedence at least 2 resp. 1) on top of the untouched entry stack,
provided the entry stack's top does not bind that tightly. -/
def SegP : Lv → List Str → Q → Prop
  | .atom => fun ts v => ∃ r, RpnGood r v ∧
      ∀ (rest out stack : List Str),
        syLoop (ts ++ rest) out stack = syLoop rest (out ++ r) stack
  | .term => fun ts v => ∃ r pend,
      (∀ op ∈ pend, ¬ op = ['('] ∧ 2 ≤ precedenceOf op) ∧
      RpnGood (r ++ pend) v ∧
      ∀ (rest out stack : List Str), headOK 2 stack →
        syLoop (ts ++ rest) out stack = syLoop rest (out ++ r) (pend ++ stack)
  | .expr => fun ts v => ∃ r pend,
      (∀ op ∈ pend, ¬ op = ['('] ∧ 1 ≤ precedenceOf op) ∧
      RpnGood (r ++ pend) v ∧
      ∀ (rest out stack : List Str), headOK 1 stack →
        syLoop (ts ++ rest) out stack = syLoop rest (out ++ r) (pend ++ stack)

/-- Every well-formed token segment satisfies its level's shunting-yard
contract. -/
theorem FormsT_seg {lv : Lv} {ts : List Str} {v : Q} (h : FormsT lv ts v) :
    SegP lv ts v := by
  induction h with
  | lit ds hne hds =>
    refine ⟨[ds], RpnGood_num hne hds, ?_⟩
    intro rest out stack
    show syLoop (ds :: rest) out stack = _
    rw [syLoop_cons, if_pos (isNumberTok_digits hne hds)]
  | paren hin ih =>
    rename_i tsI vI
    obtain ⟨r, pend, hpend, hgood, hrun⟩ := ih
    refine ⟨r ++ pend, hgood, ?_⟩
    intro rest out stack
    have hassoc : ([['(']] ++ tsI ++ [[')']]) ++ rest =
        ['('] :: (tsI ++ ([')'] :: rest)) := by simp
    rw [hassoc, syLoop_cons,
      if_neg (by rw [show isNumberTok ['('] = false from by decide]
                 exact Bool.false_ne_true),
      if_pos rfl,
      hrun ([')'] :: rest) out (['('] :: stack) (Or.inl rfl),
      syLoop_cons,
      if_neg (by rw [show isNumberTok [')'] = false from by decide]
                 exact Bool.false_ne_true),
      if_neg (by decide), if_pos rfl,
      popUntil_pend (fun op hop => (hpend op hop).1) (out ++ r) stack]
    dsimp only
    rw [List.append_assoc]
  | atomTerm hin ih =>
    obtain ⟨r, hgood, hrun⟩ := ih
    refine ⟨r, [], by simp, by rw [List.append_nil]; exact hgood, ?_⟩
    intro rest out stack _
    exact hrun rest out stack
  | termExpr hin ih =>
    obtain ⟨r, pend, hpend, hgood, hrun⟩ := ih
    refine ⟨r, pend,
      fun op hop => ⟨(hpend op hop).1, le_trans (by omega) (hpend op hop).2⟩,
      hgood, ?_⟩
    intro rest out stack hst
    refine hrun rest out stack ?_
    rcases stack with _ | ⟨top, s2⟩
    · trivial
    · rcases hst with hq | hq
      · exact Or.inl hq
      · exact Or.inr (by omega)
  | mul hA hB ih1 ih2 =>
    rename_i tsA usA vA wA
    obtain ⟨r1, pend1, hpend1, hgood1, hrun1⟩ := ih1
    obtain ⟨r2, hgood2, hrun2⟩ := ih2
    refine ⟨(r1 ++ pend1) ++ r2, [['*']], ?_, ?_, ?_⟩
    · intro op hop
      rw [List.mem_singleton] at hop
      subst hop
      exact ⟨by decide, by decide⟩
    · exact RpnGood_binoptok hgood1 hgood2 (by decide) (by decide) (by decide) rfl
    · intro rest out stack hst
      have hassoc : (tsA ++ [['*']] ++ usA) ++ rest =
          tsA ++ (['*'] :: (usA ++ rest)) := by simp
      rw [hassoc, hrun1 (['*'] :: (usA ++ rest)) out stack hst, syLoop_cons,
        if_neg (by rw [show isNumberTok ['*'] = false from by decide]
                   exact Bool.false_ne_true),
        if_neg (by decide), if_neg (by decide), if_pos (by decide),
        show precedenceOf ['*'] = 2 from rfl,
        popGePrec_pend hpend1 hst (out ++ r1)]
      dsimp only
      rw [hrun2 rest ((out ++ r1) ++ pend1) (['*'] :: stack)]
      simp
  | div hA hB hw ih1 ih2 =>
    rename_i tsA usA vA wA
    obtain ⟨r1, pend1, hpend1, hgood1, hrun1⟩ := ih1
    obtain ⟨r2, hgood2, hrun2⟩ := ih2
    refine ⟨(r1 ++ pend1) ++ r2, [['/']], ?_, ?_, ?_⟩
    · intro op hop
      rw [List.mem_singleton] at hop
      subst hop
      exact ⟨by decide, by decide⟩
    · refine RpnGood_binoptok hgood1 hgood2 (by decide) (by decide) (by decide) ?_
      show CalcDivide vA wA = .ok (vA / wA)
      unfold CalcDivide
      rw [if_neg hw]
    · intro rest out stack hst
      have hassoc : (tsA ++ [['/']] ++ usA) ++ rest =
          tsA ++ (['/'] :: (usA ++ rest)) := by simp
      rw [hassoc, hrun1 (['/'] :: (usA ++ rest)) out stack hst, syLoop_cons,
        if_neg (by rw [show isNumberTok ['/'] = false from by decide]
                   exact Bool.false_ne_true),
        if_neg (by decide), if_neg (by decide), if_pos (by decide),
        show precedenceOf ['/'] = 2 from rfl,
        popGePrec_pend hpend1 hst (out ++ r1)]
      dsimp only
      rw [hrun2 rest ((out ++ r1) ++ pend1) (['/'] :: stack)]
      simp
  | add hA hB ih1 ih2 =>
    rename_i tsA usA vA wA
    obtain ⟨r1, pend1, hpend1, hgood1, hrun1⟩ := ih1
    obtain ⟨r2, pend2, hpend2, hgood2, hrun2⟩ := ih2
    refine ⟨(r1 ++ pend1) ++ r2, pend2 ++ [['+']], ?_, ?_, ?_⟩
    · intro op hop
      rcases List.mem_append.mp hop with hq | hq
      · exact ⟨(hpend2 op hq).1, le_trans (by omega) (hpend2 op hq).2⟩
      · rw [List.mem_singleton] at hq
        subst hq
        exact ⟨by decide, by decide⟩
    · have hg := RpnGood_binoptok hgood1 hgood2 (by decide) (by decide) (by decide)
        (rfl : applyBinOp ['+'] vA wA = .ok (vA + wA))
      have heq : (r1 ++ pend1) ++ (r2 ++ pend2) ++ [['+']] =
          ((r1 ++ pend1) ++ r2) ++ (pend2 ++ [['+']]) := by simp
      rw [← heq]
      exact hg
    · intro rest out stack hst
      have hassoc : (tsA ++ [['+']] ++ usA) ++ rest =
          tsA ++ (['+'] :: (usA ++ rest)) := by simp
      rw [hassoc, hrun1 (['+'] :: (usA ++ rest)) out stack hst, syLoop_cons,
        if_neg (by rw [show isNumberTok ['+'] = false from by decide]
                   exact Bool.false_ne_true),
        if_neg (by decide), if_neg (by decide), if_pos (by decide),
        show precedenceOf ['+'] = 1 from rfl,
        popGePrec_pend hpend1 hst (out ++ r1)]
      dsimp only
      rw [hrun2 rest ((out ++ r1) ++ pend1) (['+'] :: stack) (Or.inr (by decide))]
      simp
  | sub hA hB ih1 ih2 =>
    rename_i tsA usA vA wA
    obtain ⟨r1, pend1, hpend1, hgood1, hrun1⟩ := ih1
    obtain ⟨r2, pend2, hpend2, hgood2, hrun2⟩ := ih2
    refine ⟨(r1 ++ pend1) ++ r2, pend2 ++ [['-']], ?_, ?_, ?_⟩
    · intro op hop
      rcases List.mem_append.mp hop with hq | hq
      · exact ⟨(hpend2 op hq).1, le_trans (by omega) (hpend2 op hq).2⟩
      · rw [List.mem_singleton] at hq
        subst hq
        exact ⟨by decide, by decide⟩
    · have hg := RpnGood_binoptok hgood1 hgood2 (by decide) (by decide) (by decide)
        (rfl : applyBinOp ['-'] vA wA = .ok (vA - wA))
      have heq : (r1 ++ pend1) ++ (r2 ++ pend2) ++ [['-']] =
          ((r1 ++ pend1) ++ r2) ++ (pend2 ++ [['-']]) := by simp
      rw [← heq]
      exact hg
    · intro rest out stack hst
      have hassoc : (tsA ++ [['-']] ++ usA) ++ rest =
          tsA ++ (['-'] :: (usA ++ rest)) := by simp
      rw [hassoc, hrun1 (['-'] :: (usA ++ rest)) out stack hst, syLoop_cons,
        if_neg (by rw [show isNumberTok ['-'] = false from by decide]
                   exact Bool.false_ne_true),
        if_neg (by decide), if_neg (by decide), if_pos (by decide),
        show precedenceOf ['-'] = 1 from rfl,
        popGePrec_pend hpend1 hst (out ++ r1)]
      dsimp only
      rw [hrun2 rest ((out ++ r1) ++ pend1) (['-'] :: stack) (Or.inr (by decide))]
      simp

/-- A fragment character is not an exclamation mark. -/
theorem simpleChar_not_bang {c : Char} (h : simpleChar c = true) : ¬ c = '!' := by
  rcases simpleChar_cases h with hd | h1 | h1 | h1 | h1 | h1 | h1
  · exact (digit_props hd).2.2.2.2.2.1
  all_goals subst h1
  all_goals decide

/-- A well-formed token segment passes the shunting yard and the RPN
machine with its value. -/
theorem FormsT_evaluates {ts : List Str} {v : Q} (h : FormsT .expr ts v) :
    ∃ rpn, shuntingYard ts = .ok rpn ∧ evaluateRPN rpn = .ok v := by
  obtain ⟨r, pend, hpend, hgood, hrun⟩ := FormsT_seg h
  refine ⟨r ++ pend, ?_, ?_⟩
  · unfold shuntingYard
    have hx := hrun [] [] [] trivial
    rw [List.append_nil] at hx
    rw [hx, syLoop_nil]
    dsimp only
    rw [List.nil_append, List.append_nil]
    exact syFlush_pend (fun op hop => (hpend op hop).1) r
  · unfold evaluateRPN
    have hx := hgood [] []
    rw [List.append_nil] at hx
    rw [hx]
    rfl

/-- Parser.evaluate computes the standard arithmetic value of any
well-formed fragment string. -/
theorem Forms_evaluate {s : Str} {v : Q} (h : Forms .expr s v) :
    evaluate s = .ok v := by
  obtain ⟨ts, hts, htok⟩ := Forms_tokenizeF h
  have hnb : containsSub ['!'] s = false :=
    containsSub_single_false
      (fun x hx => simpleChar_not_bang ((Forms_facts h).2 x hx))
  unfold evaluate
  rw [evaluateFuel_succ, if_neg (by rw [hnb]; exact Bool.false_ne_true),
    htok, FormsT_processUnary hts]
  obtain ⟨rpn, hsy, hev⟩ := FormsT_evaluates hts
  rw [hsy]
  exact hev

/-- A fragment character is not a space. -/
theorem simpleChar_not_space {c : Char} (h : simpleChar c = true) : ¬ c = ' ' := by
  rcases simpleChar_cases h with hd | h1 | h1 | h1 | h1 | h1 | h1
  · exact (digit_props hd).2.2.2.2.1
  all_goals subst h1
  all_goals decide

/-- A fragment character is not an ASCII uppercase letter. -/
theorem simpleChar_not_upper {c : Char} (h : simpleChar c = true) :
    isUpperCh c = false := by
  rcases simpleChar_cases h with hd | h1 | h1 | h1 | h1 | h1 | h1
  · exact (digit_props hd).2.2.2.2.2.2.2.2.1
  all_goals subst h1
  all_goals decide

/-- A fragment character cannot start an identifier. -/
theorem simpleChar_not_nameStart {c : Char} (h : simpleChar c = true) :
    isNameStartCh c = false := by
  rcases simpleChar_cases h with hd | h1 | h1 | h1 | h1 | h1 | h1
  · exact (digit_props hd).2.2.2.2.2.2.2.2.2.1
  all_goals subst h1
  all_goals decide

/-- filter is the identity when every element passes. -/
theorem filter_id {p : Char → Bool} : ∀ {s : Str},
    (∀ c ∈ s, p c = true) → s.filter p = s := by
  intro s
  induction s with
  | nil => intro _; rfl
  | cons a rest ih =>
    intro h
    rw [List.filter_cons_of_pos (h a (List.mem_cons_self a rest)),
      ih (fun c hc => h c (List.mem_cons_of_mem a hc))]

/-- Lowercasing is the identity off the uppercase range. -/
theorem lowerChar_id {c : Char} (h : isUpperCh c = false) : lowerChar c = c := by
  unfold lowerChar
  have hnone : lowerTable.find? (fun p => p.1 == c) = none := by
    rw [List.find?_eq_none]
    intro x hx hq
    have hup : ∀ y ∈ lowerTable, isUpperCh y.1 = true := by decide
    have := hup x hx
    rw [eq_of_beq hq] at this
    rw [h] at this
    exact Bool.noConfusion this
  rw [hnone]

/-- Mapping ToLower over an uppercase-free string changes nothing. -/
theorem map_lower_id : ∀ {s : Str},
    (∀ c ∈ s, isUpperCh c = false) → s.map lowerChar = s := by
  intro s
  induction s with
  | nil => intro _; rfl
  | cons a rest ih =>
    intro h
    rw [List.map_cons, lowerChar_id (h a (List.mem_cons_self a rest)),
      ih (fun c hc => h c (List.mem_cons_of_mem a hc))]

/-- The word-replacement scan is the identity when the name's first
character never occurs in the string. -/
theorem rwAux_id {name repl : Str} {c0 : Char} (hhead : name.head? = some c0) :
    ∀ (f : Nat) (prev : Option Char) (s : Str), (∀ c ∈ s, ¬ c = c0) →
      rwAux name repl f prev s = s := by
  obtain ⟨nt, rfl⟩ : ∃ nt, name = c0 :: nt := by
    rcases name with _ | ⟨n0, nt⟩
    · exact absurd hhead (by simp)
    · simp only [List.head?_cons, Option.some.injEq] at hhead
      subst hhead
      exact ⟨nt, rfl⟩
  intro f
  induction f with
  | zero => intro prev s _; rfl
  | succ f ih =>
    intro prev s hs
    rcases s with _ | ⟨c, rest⟩
    · rfl
    · show (if (c0 :: nt) ≠ [] ∧ headMatches (c0 :: nt) (c :: rest) = true ∧
          isWordOpt prev = false ∧
          boundaryOkAfter ((c :: rest).drop (c0 :: nt).length) = true then
          (repl ++ rwAux (c0 :: nt) repl f (c0 :: nt).getLast?
            ((c :: rest).drop (c0 :: nt).length))
        else c :: rwAux (c0 :: nt) repl f (some c) rest) = c :: rest
      rw [if_neg (by
        intro hc
        have hm := hc.2.1
        rw [show headMatches (c0 :: nt) (c :: rest) =
            (decide (c0 = c) && headMatches nt rest) from rfl] at hm
        simp only [Bool.and_eq_true] at hm
        exact hs c (List.mem_cons_self c rest) (of_decide_eq_true hm.1).symm)]
      rw [ih (some c) rest (fun x hx => hs x (List.mem_cons_of_mem c hx))]

/-- Constant and variable substitution changes nothing on a fragment
string when there are no user variables. -/
theorem substConstants_id {st : ParserState} {s : Str} (hvars : st.vars = [])
    (hs : ∀ c ∈ s, simpleChar c = true) : substConstants st s = s := by
  have hnotc : ∀ (c0 : Char), isLowerCh c0 = true → ∀ x ∈ s, ¬ x = c0 := by
    intro c0 hc0 x hx hq
    subst hq
    rw [simpleChar_not_lower (hs x hx)] at hc0
    exact Bool.noConfusion hc0
  unfold substConstants
  dsimp only
  rw [show replaceWordAll (strL "pi") (formatF10 piQ) s = s from
      rwAux_id (by rfl) (s.length + 1) none s (hnotc 'p' (by decide)),
    show replaceWordAll (strL "e") (formatF10 eQ) s = s from
      rwAux_id (by rfl) (s.length + 1) none s (hnotc 'e' (by decide)),
    show replaceWordAll (strL "ans") (formatF10 st.ansConst) s = s from
      rwAux_id (by rfl) (s.length + 1) none s (hnotc 'a' (by decide)),
    hvars]
  rfl

/-- The function-call scanner finds nothing in a string without
identifier characters. -/
theorem findFuncMatch_none : ∀ {s : Str},
    (∀ c ∈ s, isNameStartCh c = false) → findFuncMatch s = none := by
  intro s
  induction s with
  | nil => intro _; rfl
  | cons c rest ih =>
    intro h
    unfold findFuncMatch
    rw [if_neg (by
      rw [h c (List.mem_cons_self c rest)]
      exact Bool.false_ne_true)]
    exact ih (fun x hx => h x (List.mem_cons_of_mem c hx))

/-- C7 (amended): for every well-formed expression over numeric
literals, the binary operators + - * / and parentheses - formalised by
the grammar Forms, whose division rule carries the standard nonzero-
divisor side condition - EvaluateExpression returns exactly the value of
standard left-to-right, precedence-respecting arithmetic, provided no
user variable is defined and the expression does not trip the textual
division-by-zero heuristic of the validator (contains "/0" without
containing "/0."). -/
theorem c7_wellformed_fragment_evaluates (s : Str) (v : Q) (st : ParserState)
    (h : Forms .expr s v) (hvars : st.vars = [])
    (hdiv : ¬ (containsSub (strL "/0") s = true ∧
      ¬ containsSub (strL "/0.") s = true)) :
    (EvaluateExpression s st).1 = .ok v := by
  obtain ⟨hne, hch⟩ := Forms_facts h
  unfold EvaluateExpression
  rw [show s.length + 2 = (s.length + 1) + 1 from rfl, evalFuel_succ, if_neg hne,
    Forms_validate h hdiv]
  dsimp only
  have hfl : (s.filter (fun c => !decide (c = ' '))).map lowerChar = s := by
    rw [filter_id (fun c hc => by
        have hq := simpleChar_not_space (hch c hc)
        simp [hq]),
      map_lower_id (fun c hc => simpleChar_not_upper (hch c hc))]
  have hsub : substConstants
      { angleDeg := st.angleDeg, vars := st.vars, ansConst := st.calcSt.lastResult, calcSt := st.calcSt } s = s :=
    substConstants_id hvars hch
  rw [hfl, hsub, procFuel_succ,
    findFuncMatch_none (fun c hc => simpleChar_not_nameStart (hch c hc))]
  dsimp only
  rw [Forms_evaluate h]

/-- C7 counterexample to the unamended claim: 8/02 is well-formed in the
claim's fragment (a division of the literal 8 by the literal 02, value
4), yet EvaluateExpression rejects it - the textual division-by-zero
heuristic of the validator fires on the substring "/0" before evaluation
is ever reached. -/
theorem c7_heuristic_rejects_wellformed :
    Forms .expr (strL "8/02") 4 ∧
    (EvaluateExpression (strL "8/02") initState).1 =
      .error "invalid expression: potential division by zero" := by
  constructor
  · have hd : Forms .expr (strL "8/02")
        (((natVal ['8'] : Nat) : Q) / ((natVal ['0', '2'] : Nat) : Q)) :=
      Forms.termExpr (Forms.div
        (Forms.atomTerm (Forms.lit ['8'] (by decide) (by decide)))
        (Forms.lit ['0', '2'] (by decide) (by decide))
        (by norm_num [show natVal ['0', '2'] = 2 from rfl]))
    have hval : (((natVal ['8'] : Nat) : Q) / ((natVal ['0', '2'] : Nat) : Q)) = 4 := by
      norm_num [show natVal ['8'] = 8 from rfl, show natVal ['0', '2'] = 2 from rfl]
    exact hval ▸ hd
  · decide

/-- Witness for the C7 amended theorem: the spec's two examples, each
obtained by applying the theorem to an explicit grammar derivation. -/
theorem c7_wellformed_fragment_evaluates_witness :
    (EvaluateExpression (strL "2+3*4") initState).1 = .ok 14 ∧
    (EvaluateExpression (strL "(2+3)*4") initState).1 = .ok 20 := by
  constructor
  · have hd : Forms .expr (strL "2+3*4")
        (((natVal ['2'] : Nat) : Q) +
          ((natVal ['3'] : Nat) : Q) * ((natVal ['4'] : Nat) : Q)) :=
      Forms.add
        (Forms.termExpr (Forms.atomTerm (Forms.lit ['2'] (by decide) (by decide))))
        (Forms.mul (Forms.atomTerm (Forms.lit ['3'] (by decide) (by decide)))
          (Forms.lit ['4'] (by decide) (by decide)))
    have hval : (((natVal ['2'] : Nat) : Q) +
        ((natVal ['3'] : Nat) : Q) * ((natVal ['4'] : Nat) : Q)) = 14 := by
      norm_num [show natVal ['2'] = 2 from rfl, show natVal ['3'] = 3 from rfl,
        show natVal ['4'] = 4 from rfl]
    exact c7_wellformed_fragment_evaluates (strL "2+3*4") 14 initState
      (hval ▸ hd) rfl (by decide)
  · have hd : Forms .expr (strL "(2+3)*4")
        ((((natVal ['2'] : Nat) : Q) + ((natVal ['3'] : Nat) : Q)) *
          ((natVal ['4'] : Nat) : Q)) :=
      Forms.termExpr (Forms.mul
        (Forms.atomTerm (Forms.paren
          (Forms.add
            (Forms.termExpr (Forms.atomTerm (Forms.lit ['2'] (by decide) (by decide))))
            (Forms.atomTerm (Forms.lit ['3'] (by decide) (by decide))))))
        (Forms.lit ['4'] (by decide) (by decide)))
    have hval : ((((natVal ['2'] : Nat) : Q) + ((natVal ['3'] : Nat) : Q)) *
        ((natVal ['4'] : Nat) : Q)) = 20 := by
      norm_num [show natVal ['2'] = 2 from rfl, show natVal ['3'] = 3 from rfl,
        show natVal ['4'] = 4 from rfl]
    exact c7_wellformed_fragment_evaluates (strL "(2+3)*4") 20 initState
      (hval ▸ hd) rfl (by decide)
